import Mathlib

/-!
Verification development for the circuit-cutting core (`pennylane/qcut.py`).

The source file implements `cut_circuit` (the main transform) and
`remove_wire_cut_node` in full; the remaining pipeline stages
(`tape_to_graph`, `fragment_graph`, `graph_to_tape`,
`expand_fragment_tapes`, `contract`, `find_and_place_cuts`,
`example_method`, `place_cuts`) are declared with elided bodies and are
modelled here from the specification, each marked `Modelled from the
spec:` in its doc comment.  Machine integers do not occur; all arithmetic
is over `Nat`/`Int`.
-/

namespace QCut

open BigOperators

/-- Operation kinds: ordinary gates (with an opaque label), the `WireCut`
marker, the `MeasureNode`/`PrepareNode` placeholders, and concrete
basis-resolved operations produced by configuration expansion. -/
inductive OpKind where
  | gate (label : Nat)
  | wireCut
  | measureNode
  | prepareNode
  | basisElem (b : Nat)
deriving DecidableEq, Repr

/-- A node of the computation multigraph: an operation with its identity
(`idx`, the arena handle) and the ordered list of channels it acts on. -/
structure Node where
  idx : Nat
  kind : OpKind
  wires : List Nat
deriving DecidableEq, Repr

/-- A directed multigraph edge.  `wire` is the channel annotation placed by
the Graph Builder (the source's `remove_wire_cut_node` adds edges without
attributes, hence `none` there); `pair` is the cut-edge annotation
`pair=(measure, prepare)` added at line 114 of the source. -/
structure Edge where
  src : Nat
  dst : Nat
  wire : Option Nat
  pair : Option (Nat × Nat)
deriving DecidableEq, Repr

/-- A directed multigraph in insertion order: `networkx.MultiDiGraph`
preserves node and edge insertion order, which the lists model. -/
structure Graph where
  nodes : List Node
  edges : List Edge
deriving DecidableEq, Repr

/-- An operation of a linear program (tape): kind plus channels. -/
structure TapeOp where
  kind : OpKind
  wires : List Nat
deriving DecidableEq, Repr

/-! ### Insertion-ordered dictionaries (Python `dict` semantics) -/

/-- Dictionary lookup: value of the first entry with the given key. -/
def dGet (d : List (Nat × Nat)) (w : Nat) : Option Nat :=
  (d.find? (fun p => p.1 == w)).map (fun p => p.2)

/-- Dictionary update with Python semantics: overwriting keeps the key's
original position; a new key is appended. -/
def dSet (d : List (Nat × Nat)) (w v : Nat) : List (Nat × Nat) :=
  if d.any (fun p => p.1 == w) then
    d.map (fun p => if p.1 == w then (w, v) else p)
  else d ++ [(w, v)]

/-- Dictionary keys in insertion order. -/
def dKeys (d : List (Nat × Nat)) : List Nat := d.map (fun p => p.1)

/-- First-occurrence deduplication with an accumulator of already seen
values. -/
def dedupFirstAux : List Nat → List Nat → List Nat
  | [], _ => []
  | x :: xs, seen =>
    if seen.contains x then dedupFirstAux xs seen
    else x :: dedupFirstAux xs (seen ++ [x])

/-- First-occurrence deduplication, modelling iteration over the keys of a
`networkx` adjacency dictionary (each neighbour appears once, in the order
its first edge was inserted). -/
def dedupFirst (l : List Nat) : List Nat := dedupFirstAux l []

/-! ### Graph primitives -/

/-- Node identities present in the graph, in insertion order. -/
def nodeIds (g : Graph) : List Nat := g.nodes.map (fun n => n.idx)

/-- Predecessors of a node: sources of incoming edges, deduplicated in
first-insertion order (`MultiDiGraph.predecessors`). -/
def predsOf (g : Graph) (x : Nat) : List Nat :=
  dedupFirst ((g.edges.filter (fun e => e.dst == x)).map (fun e => e.src))

/-- Successors of a node (`MultiDiGraph.successors`). -/
def succsOf (g : Graph) (x : Nat) : List Nat :=
  dedupFirst ((g.edges.filter (fun e => e.src == x)).map (fun e => e.dst))

/-- Removes a node and all incident edges (`MultiDiGraph.remove_node`). -/
def removeNode (g : Graph) (x : Nat) : Graph :=
  { nodes := g.nodes.filter (fun n => n.idx != x),
    edges := g.edges.filter (fun e => e.src != x && e.dst != x) }

/-- Appends a node (`MultiDiGraph.add_node`). -/
def addNode (g : Graph) (n : Node) : Graph := { g with nodes := g.nodes ++ [n] }

/-- Appends an edge (`MultiDiGraph.add_edge`). -/
def addEdge (g : Graph) (e : Edge) : Graph := { g with edges := g.edges ++ [e] }

/-- The wire list of the node with the given identity (a Python reference
`p.wires` never fails; absent identities yield `[]`, unused in practice). -/
def wiresOf (g : Graph) (x : Nat) : List Nat :=
  ((g.nodes.find? (fun n => n.idx == x)).map (fun n => n.wires)).getD []

/-! ### Graph Builder -/

/-- Edge construction for the Graph Builder: walks the node list carrying a
dictionary from each channel to the most recent prior node touching it,
emitting one channel-annotated edge per dependency. -/
def graphEdges : List Node → List (Nat × Nat) → List Edge
  | [], _ => []
  | n :: rest, lastW =>
    (n.wires.filterMap (fun w => (dGet lastW w).map (fun p => Edge.mk p n.idx (some w) none)))
      ++ graphEdges rest (n.wires.foldl (fun d w => dSet d w n.idx) lastW)

/-- Modelled from the spec: the body of `tape_to_graph` is elided in the
source (line 72).  Per the Graph Builder contract, every operation becomes
exactly one node (identity = its position), and for each channel an edge is
added from the most recent prior operation touching that channel to the
current one, in program order. -/
def tape_to_graph (tape : List TapeOp) : Graph :=
  let ns := tape.enum.map (fun p => Node.mk p.1 p.2.kind p.2.wires)
  { nodes := ns, edges := graphEdges ns [] }

/-! ### Cut Resolver (`remove_wire_cut_node`, source lines 75-114, real body) -/

/-- Mutable state threaded through the loops of `remove_wire_cut_node`:
the graph, the fresh-identity counter, and the `measure_wires` /
`prepare_wires` dictionaries. -/
structure RS where
  g : Graph
  fresh : Nat
  mw : List (Nat × Nat)
  pw : List (Nat × Nat)

/-- Loop over `node.wires` (source lines 85-93): creates one `MeasureNode`
and one `PrepareNode` per wire, adds both to the graph, records them. -/
def rsWiresLoop (rs : RS) (w : Nat) : RS :=
  let meas : Node := { idx := rs.fresh, kind := .measureNode, wires := [w] }
  let prep : Node := { idx := rs.fresh + 1, kind := .prepareNode, wires := [w] }
  { g := addNode (addNode rs.g meas) prep,
    fresh := rs.fresh + 2,
    mw := dSet rs.mw w rs.fresh,
    pw := dSet rs.pw w (rs.fresh + 1) }

/-- Loop over predecessors (source lines 95-101): for every wire of the
predecessor that the marker occupies, creates a new `MeasureNode`, adds an
edge from the predecessor to it, and overwrites the dictionary entry. -/
def rsPredLoop (ndWires : List Nat) (g0 : Graph) (rs : RS) (p : Nat) : RS :=
  (wiresOf g0 p).foldl (fun rs w =>
    if ndWires.contains w then
      let m : Node := { idx := rs.fresh, kind := .measureNode, wires := [w] }
      { g := addEdge (addNode rs.g m) { src := p, dst := rs.fresh, wire := none, pair := none },
        fresh := rs.fresh + 1,
        mw := dSet rs.mw w rs.fresh,
        pw := rs.pw }
    else rs) rs

/-- Loop over successors (source lines 103-109): symmetric, with a new
`PrepareNode` and an edge from it to the successor. -/
def rsSuccLoop (ndWires : List Nat) (g0 : Graph) (rs : RS) (s : Nat) : RS :=
  (wiresOf g0 s).foldl (fun rs w =>
    if ndWires.contains w then
      let pnode : Node := { idx := rs.fresh, kind := .prepareNode, wires := [w] }
      { g := addEdge (addNode rs.g pnode) { src := rs.fresh, dst := s, wire := none, pair := none },
        fresh := rs.fresh + 1,
        mw := rs.mw,
        pw := dSet rs.pw w rs.fresh }
    else rs) rs

/-- Pairing loop (source lines 111-114): for every key of `measure_wires`,
adds the `pair=(measure, prepare)`-annotated edge between the currently
recorded measure and prepare nodes. -/
def rsPairLoop (rs : RS) : Graph :=
  (dKeys rs.mw).foldl (fun g w =>
    let m := (dGet rs.mw w).getD 0
    let p := (dGet rs.pw w).getD 0
    addEdge g { src := m, dst := p, wire := none, pair := some (m, p) }) rs.g

/-- Embedding of `remove_wire_cut_node` (source lines 75-114).  The
predecessor and successor iterators are captured before `remove_node`, and
in `networkx` they remain valid and yield the pre-removal neighbours; the
embedding therefore computes them on the pre-removal graph.  Fresh node
identities are drawn from the threaded counter. -/
def remove_wire_cut_node (nd : Node) (g0 : Graph) (fresh : Nat) : Graph × Nat :=
  let preds := predsOf g0 nd.idx
  let succs := succsOf g0 nd.idx
  let rs0 : RS := { g := removeNode g0 nd.idx, fresh := fresh, mw := [], pw := [] }
  let rs1 := nd.wires.foldl rsWiresLoop rs0
  let rs2 := preds.foldl (rsPredLoop nd.wires g0) rs1
  let rs3 := succs.foldl (rsSuccLoop nd.wires g0) rs2
  (rsPairLoop rs3, rs3.fresh)

/-- The marker-resolution loop of `cut_circuit` (source lines 51-54):
iterates over the tape's operations in program order and removes every
`WireCut` with `remove_wire_cut_node`.  Fresh identities start past the
tape's own. -/
def resolveCuts (tape : List TapeOp) : Graph :=
  let g := tape_to_graph tape
  ((g.nodes.filter (fun n => n.kind == OpKind.wireCut)).foldl
    (fun s nd => remove_wire_cut_node nd s.1 s.2) (g, tape.length)).1

/-! ### Fragmenter -/

/-- One step of undirected closure over the data edges (cut-edge
annotations are tagged as fragment boundaries, §4.2, and thus excluded
from connectivity). -/
def adjStep (g : Graph) (s : List Nat) : List Nat :=
  s ++ (nodeIds g).filter (fun y =>
    !s.contains y &&
      g.edges.any (fun e =>
        e.pair == none && ((e.src == y && s.contains e.dst) || (e.dst == y && s.contains e.src))))

/-- Node identities weakly reachable from `x` over data edges. -/
def reachFrom (g : Graph) (x : Nat) : List Nat :=
  (adjStep g)^[g.nodes.length] [x]

/-- Weakly-connected components of the data-edge graph, each listed in
node insertion order, components ordered by their earliest node. -/
def components (g : Graph) : List (List Nat) :=
  g.nodes.foldl (fun comps n =>
    if comps.any (fun c => c.contains n.idx) then comps
    else comps ++ [(nodeIds g).filter (fun y => (reachFrom g n.idx).contains y)]) []

/-- The communication graph: fragment count plus one edge
`(sourceFragment, targetFragment, measureId, prepareId)` per cut edge, in
cut-edge insertion order. -/
structure CommGraph where
  nFrags : Nat
  edges : List (Nat × Nat × Nat × Nat)
deriving DecidableEq, Repr

/-- Index of the component containing a node identity. -/
def fragIndexOf (comps : List (List Nat)) (x : Nat) : Nat :=
  (comps.findIdx? (fun c => c.contains x)).getD 0

/-- The induced fragment subgraph on a component: its nodes and the data
edges between them, cut-edge annotations excluded. -/
def subgraphOf (g : Graph) (c : List Nat) : Graph :=
  { nodes := g.nodes.filter (fun n => c.contains n.idx),
    edges := g.edges.filter (fun e => e.pair == none && c.contains e.src && c.contains e.dst) }

/-- Modelled from the spec: the body of `fragment_graph` is elided in the
source (line 147).  Per §4.4 it partitions the resolved graph into
weakly-connected components (cut-edge annotations are fragment boundaries,
§4.2) and builds the communication graph with one edge per cut edge,
payload the (measure, prepare) identity pair; ordering is a stable
function of insertion order. -/
def fragment_graph (g : Graph) : List Graph × CommGraph :=
  let comps := components g
  let frags := comps.map (subgraphOf g)
  let ces := g.edges.filterMap (fun e =>
    e.pair.map (fun pr => (fragIndexOf comps pr.1, fragIndexOf comps pr.2, pr.1, pr.2)))
  (frags, { nFrags := comps.length, edges := ces })

/-! ### Program Reconstructor -/

/-- Error kinds of the pipeline (§7). -/
inductive CutError where
  | cyclicFragment
  | infeasibleCut
  | unknownMethod
deriving DecidableEq, Repr

/-- A node is ready when no data edge reaches it from a remaining node. -/
def readyIn (g : Graph) (rem : List Node) (n : Node) : Bool :=
  !(g.edges.any (fun e =>
    e.pair == none && e.dst == n.idx && rem.any (fun m => m.idx == e.src)))

/-- Fuel-bounded stable topological sort: repeatedly emits the first
remaining node (in insertion order) with no incoming data edge from the
remaining set. -/
def topoAux (g : Graph) : Nat → List Node → Except CutError (List Node)
  | _, [] => .ok []
  | 0, _ :: _ => .error .cyclicFragment
  | fuel + 1, rem =>
    match rem.find? (readyIn g rem) with
    | none => .error .cyclicFragment
    | some n => (topoAux g fuel (rem.filter (fun m => m.idx != n.idx))).map (fun t => n :: t)

/-- Modelled from the spec: the body of `graph_to_tape` is elided in the
source (line 152).  Per §4.5 it is a topological linearization of the
fragment's nodes excluding cut-edge annotations, failing with
`CyclicFragmentError` on a non-DAG fragment. -/
def graph_to_tape (g : Graph) : Except CutError (List Node) :=
  topoAux g g.nodes.length g.nodes

/-! ### Configuration Expander -/

/-- Modelled from the spec: the basis alphabet size is an
implementation-defined small constant (§4.6 suggests 4-6); 4 is used. -/
def alphabetSize : Nat := 4

/-- All configuration assignments of length `p` over the alphabet, in the
fixed mixed-radix order (most significant digit first). -/
def allConfigs : Nat → List (List Nat)
  | 0 => [[]]
  | p + 1 => ((List.range alphabetSize).map (fun b => (allConfigs p).map (fun c => b :: c))).flatten

/-- Whether an operation kind is a measurement/preparation placeholder. -/
def isPlaceholder (k : OpKind) : Bool :=
  k == OpKind.measureNode || k == OpKind.prepareNode

/-- Number of placeholder nodes of a fragment program. -/
def placeholderCount (t : List Node) : Nat :=
  (t.filter (fun n => isPlaceholder n.kind)).length

/-- Resolves the placeholders of a fragment program, in program order,
to the concrete basis operations of one configuration. -/
def assignConfig : List Node → List Nat → List Node
  | [], _ => []
  | n :: rest, cfg =>
    if isPlaceholder n.kind then
      match cfg with
      | [] => { n with kind := .basisElem 0 } :: assignConfig rest []
      | b :: cs => { n with kind := .basisElem b } :: assignConfig rest cs
    else n :: assignConfig rest cfg

/-- Modelled from the spec: the body of `expand_fragment_tapes` is elided
in the source (line 157).  Per §4.6 a fragment with `p` placeholders
expands to `alphabetSize ^ p` concrete programs, enumerated in a fixed
mixed-radix order over the placeholders in program order; the enumeration
is a pure function of the fragment, hence restartable. -/
def expand_fragment_tapes (t : List Node) : List (List Node) :=
  (allConfigs (placeholderCount t)).map (assignConfig t)

/-! ### Contractor -/

/-- Splits the flat result sequence into per-fragment blocks of the given
shapes. -/
def splitShapes : List Int → List Nat → List (List Int)
  | _, [] => []
  | rs, s :: rest => rs.take s :: splitShapes (rs.drop s) rest

/-- The configuration index of fragment `i` under a global assignment of
one basis digit per communication-graph edge: mixed-radix over the axes of
fragment `i` (its incident cut edges in edge order, measure axis before
prepare axis on a self-edge). -/
def configIndexOf (ces : List (Nat × Nat × Nat × Nat)) (i : Nat) (b : List Nat) : Nat :=
  (ces.zip b).foldl (fun acc pr =>
    let acc := if pr.1.1 == i then acc * alphabetSize + pr.2 else acc
    if pr.1.2.1 == i then acc * alphabetSize + pr.2 else acc) 0

/-- Modelled from the spec: the body of `contract` is elided in the source
(line 162).  Per §4.7 each fragment's result sequence is a tensor with one
axis per placeholder; every communication-graph edge contracts the measure
axis against the paired prepare axis with the identity pairing over the
basis alphabet (shared summation digit), summing over all cut axes. -/
def contract (results : List Int) (shapes : List Nat) (cg : CommGraph) : Int :=
  let blocks := splitShapes results shapes
  ((allConfigs cg.edges.length).map (fun b =>
    ((List.range cg.nFrags).map (fun i =>
      (blocks.getD i []).getD (configIndexOf cg.edges i b) 0)).prod)).sum

/-- The post-processing value returned by `cut_circuit`
(`partial(contract, shapes=shapes, communication_graph=communication_graph)`,
source line 67), modelled per §9 as an explicit value object closed over
the per-fragment shapes and the communication graph. -/
structure PostProc where
  shapes : List Nat
  communication_graph : CommGraph
deriving DecidableEq, Repr

/-- Applying the post-processing closure to the raw results. -/
def PostProc.apply (pp : PostProc) (results : List Int) : Int :=
  contract results pp.shapes pp.communication_graph

/-- Embedding of `cut_circuit` (source lines 44-67) on the `method=None`
path: builds the graph, resolves every `WireCut` in tape order, fragments,
reconstructs each fragment's tape, expands each into its configurations,
flattens, and returns the flat tape sequence together with the
post-processing closure over the shapes and the communication graph.
Reconstruction failure (`CyclicFragmentError`, §4.5) propagates. -/
def cut_circuit (tape : List TapeOp) : Except CutError (List (List Node) × PostProc) :=
  let g := resolveCuts tape
  ((fragment_graph g).1.mapM graph_to_tape).map (fun fragment_tapes =>
    ((fragment_tapes.map expand_fragment_tapes).flatten,
     { shapes := (fragment_tapes.map expand_fragment_tapes).map List.length,
       communication_graph := (fragment_graph g).2 }))

/-! ### Cut Placement Optimizer -/

/-- Per-fragment bounds of the Cut Placement Optimizer (§4.3):
max channels per fragment, max operations per fragment, max fragment count. -/
structure CutBounds where
  maxWires : Option Nat
  maxGates : Option Nat
  numFragments : Option Nat
deriving DecidableEq, Repr

/-- An optional upper bound check. -/
def boundOk (o : Option Nat) (v : Nat) : Bool :=
  match o with
  | none => true
  | some m => decide (v ≤ m)

/-- The distinct channels a graph touches. -/
def distinctWires (g : Graph) : List Nat :=
  dedupFirst (g.nodes.map (fun n => n.wires)).flatten

/-- Whether the fragmentation of a graph satisfies all supplied bounds. -/
def satisfiesBounds (g : Graph) (b : CutBounds) : Bool :=
  ((fragment_graph g).1.all (fun f =>
      boundOk b.maxWires (distinctWires f).length && boundOk b.maxGates f.nodes.length))
    && boundOk b.numFragments (fragment_graph g).1.length

/-- A node identity unused by the graph. -/
def freshStart (g : Graph) : Nat :=
  (g.nodes.map (fun n => n.idx)).foldl max 0 + 1

/-- Removes the first data edge between the given endpoints. -/
def removeFirstEdge : List Edge → Nat → Nat → List Edge
  | [], _, _ => []
  | e :: rest, p, s =>
    if e.src == p && e.dst == s && e.pair == none then rest
    else e :: removeFirstEdge rest p s

/-- Modelled from the spec: the body of `place_cuts` is elided in the
source (line 141).  Each proposal `(predecessor, successor, wire)` is
applied through the Cut Resolver: a `WireCut` marker is spliced onto the
edge between the two operators and immediately resolved. -/
def place_cuts (g : Graph) (fresh : Nat) (props : List (Nat × Nat × Nat)) : Graph :=
  (props.foldl (fun st pr =>
    let marker : Node := { idx := st.2, kind := .wireCut, wires := [pr.2.2] }
    let g1 : Graph :=
      { nodes := st.1.nodes ++ [marker],
        edges := removeFirstEdge st.1.edges pr.1 pr.2.1
          ++ [{ src := pr.1, dst := st.2, wire := some pr.2.2, pair := none },
              { src := st.2, dst := pr.2.1, wire := some pr.2.2, pair := none }] }
    remove_wire_cut_node marker g1 (st.2 + 1)) (g, fresh)).1

/-- Candidate cut locations: the channel-annotated data edges, as
`(predecessor, successor, wire)` triples. -/
def candidateCuts (g : Graph) : List (Nat × Nat × Nat) :=
  g.edges.filterMap (fun e => e.wire.map (fun w => (e.src, e.dst, w)))

/-- Modelled from the spec: the body of `example_method` is elided in the
source (line 135).  The reference heuristic exhaustively searches subsets
of candidate edges subject to the bounds (its search budget), returning
the chosen cuts plus an informational diagnostics number. -/
def example_method (g : Graph) (b : CutBounds) : Option (List (Nat × Nat × Nat) × Nat) :=
  ((candidateCuts g).sublists.find?
      (fun props => satisfiesBounds (place_cuts g (freshStart g) props) b)).map
    (fun props => (props, (candidateCuts g).sublists.length))

/-- A cut-placement method: proposes cuts within its search budget or
reports failure with `none`. -/
def CutMethod := Graph → CutBounds → Option (List (Nat × Nat × Nat) × Nat)

/-- Registry of named cut-placement methods (§6). -/
def methodRegistry : List (String × CutMethod) := [("example_method", example_method)]

/-- Resolution of the `method` argument: a name is looked up in the
registry; a callable is used directly. -/
def resolvesMethod (method : String ⊕ CutMethod) : Option CutMethod :=
  match method with
  | .inl name => (methodRegistry.find? (fun pr => pr.1 == name)).map (fun pr => pr.2)
  | .inr f => some f

/-- Modelled from the spec: the body of `find_and_place_cuts` is elided in
the source (line 121).  Per §4.3 it resolves the method (failing with
`UnknownMethodError` for an unregistered name), asks it for cuts (failing
with `InfeasibleCutError` when none satisfying the bounds is found within
the search budget), places them, and never returns a fragmentation
violating the bounds. -/
def find_and_place_cuts (g : Graph) (method : String ⊕ CutMethod) (b : CutBounds) :
    Except CutError Graph :=
  match resolvesMethod method with
  | none => .error .unknownMethod
  | some m =>
    match m g b with
    | none => .error .infeasibleCut
    | some pd =>
      let g2 := place_cuts g (freshStart g) pd.1
      if satisfiesBounds g2 b then .ok g2 else .error .infeasibleCut

/-! ### General cut-program model for contraction exactness

Modelled from the spec: the Contractor's body is elided in the source
(line 162) and §9 leaves the basis alphabet and pairing table
implementation-defined, requiring only that the pairing exactly reproduce
the cut channel's identity transformation.  A cut Program is modelled by
its fragments and communication graph: fragment `i` maps the basis values
prepared on its incoming cut edges to the values measured on its outgoing
cut edges (`fs i`) and contributes a read-out factor (`v i`; 1 for
fragments without read-outs).  The basis alphabet is the digit set of
`allConfigs`.  A fragment's exact per-configuration results are the
identity-reconstructing indicator values times the read-out, laid out in
exactly the mixed-radix order `allConfigs` gives `expand_fragment_tapes`
(§4.6), with one axis per incident communication-graph edge in the order
`configIndexOf` consumes them.  Fragments with no operations model the
open boundaries of §4.2/§8c.  Direct execution of the uncut Program
propagates the actual channel values across the former cut points and
multiplies the read-outs evaluated on them. -/

/-- One mixed-radix accumulation step over the basis alphabet. -/
def radixStep (acc d : Nat) : Nat := acc * alphabetSize + d

/-- The mixed-radix value of a digit list (most significant first). -/
def radixVal (c : List Nat) : Nat := c.foldl radixStep 0

/-- The default communication-graph edge, for positional lookups. -/
def eDflt : Nat × Nat × Nat × Nat := (0, 0, 0, 0)

/-- The axis pattern of fragment `i`: one entry per incident cut edge in
edge order (`true` = measure axis, `false` = prepare axis), matching the
order `configIndexOf` consumes the digits. -/
def axisTags (ces : List (Nat × Nat × Nat × Nat)) (i : Nat) : List Bool :=
  (ces.map (fun e =>
    (if e.1 = i then [true] else []) ++ (if e.2.1 = i then [false] else []))).flatten

/-- The digits of a global edge assignment that belong to fragment `i`'s
axes, in axis order. -/
def axisDigits (ces : List (Nat × Nat × Nat × Nat)) (i : Nat) (b : List Nat) : List Nat :=
  ((ces.zip b).map (fun pr =>
    (if pr.1.1 = i then [pr.2] else []) ++ (if pr.1.2.1 = i then [pr.2] else []))).flatten

/-- Splits one fragment configuration into its measure-axis digits and its
prepare-axis digits, following the axis pattern. -/
def splitAxes : List Bool → List Nat → List Nat × List Nat
  | [], _ => ([], [])
  | _ :: _, [] => ([], [])
  | true :: ts, d :: ds => (d :: (splitAxes ts ds).1, (splitAxes ts ds).2)
  | false :: ts, d :: ds => ((splitAxes ts ds).1, d :: (splitAxes ts ds).2)

/-- The values measured on fragment `i`'s outgoing cut edges under a
global edge assignment, in edge order. -/
def outVals (ces : List (Nat × Nat × Nat × Nat)) (i : Nat) (b : List Nat) : List Nat :=
  (ces.zip b).filterMap (fun pr => if pr.1.1 = i then some pr.2 else none)

/-- The values prepared on fragment `i`'s incoming cut edges, in edge
order. -/
def inVals (ces : List (Nat × Nat × Nat × Nat)) (i : Nat) (b : List Nat) : List Nat :=
  (ces.zip b).filterMap (fun pr => if pr.1.2.1 = i then some pr.2 else none)

/-- The number of outgoing cut edges of fragment `i`. -/
def outCount (ces : List (Nat × Nat × Nat × Nat)) (i : Nat) : Nat :=
  (ces.filter (fun e => decide (e.1 = i))).length

/-- The exact per-configuration result of fragment `i` at one of its
configurations: 1 if the measured digits equal the fragment's output on
the prepared digits, else 0 (identity pairing), times the read-out
factor. -/
def fragTensor (ces : List (Nat × Nat × Nat × Nat)) (fs : Nat → List Nat → List Nat)
    (v : Nat → List Nat → Int) (i : Nat) (c : List Nat) : Int :=
  (if (splitAxes (axisTags ces i) c).1 = fs i (splitAxes (axisTags ces i) c).2 then 1 else 0)
    * v i (splitAxes (axisTags ces i) c).2

/-- The exact per-configuration result sequences of all fragments, each in
the `allConfigs` enumeration order that `expand_fragment_tapes` uses. -/
def fragResultBlocks (n : Nat) (ces : List (Nat × Nat × Nat × Nat))
    (fs : Nat → List Nat → List Nat) (v : Nat → List Nat → Int) : List (List Int) :=
  (List.range n).map (fun i =>
    (allConfigs (axisTags ces i).length).map (fragTensor ces fs v i))

/-- Writes an output list onto the outgoing cut edges of fragment `i`,
preserving every other edge value. -/
def assignOuts (i : Nat) : List (Nat × Nat × Nat × Nat) → List Nat → List Nat → List Nat
  | [], _, _ => []
  | _ :: _, [], _ => []
  | e :: ces, wv :: ws, o =>
    if e.1 = i then o.headD 0 :: assignOuts i ces ws o.tail
    else wv :: assignOuts i ces ws o

/-- Direct execution step: fragment `i` reads the values on its incoming
cut edges and writes its outputs onto its outgoing cut edges. -/
def propStep (fs : Nat → List Nat → List Nat) (ces : List (Nat × Nat × Nat × Nat))
    (w : List Nat) (i : Nat) : List Nat :=
  assignOuts i ces w (fs i (inVals ces i w))

/-- The edge values after direct execution of the first `t` fragments. -/
def wseq (fs : Nat → List Nat → List Nat) (ces : List (Nat × Nat × Nat × Nat))
    (t : Nat) : List Nat :=
  (List.range t).foldl (propStep fs ces) (List.replicate ces.length 0)

/-- The channel values direct execution of the uncut Program realizes on
the former cut points. -/
def uncutEdgeValues (fs : Nat → List Nat → List Nat)
    (ces : List (Nat × Nat × Nat × Nat)) (n : Nat) : List Nat :=
  wseq fs ces n

/-- The value direct execution of the uncut Program produces: the product
of the fragments' read-out factors evaluated on the actual propagated
channel values. -/
def uncutValue (fs : Nat → List Nat → List Nat) (ces : List (Nat × Nat × Nat × Nat))
    (v : Nat → List Nat → Int) (n : Nat) : Int :=
  ((List.range n).map (fun i => v i (inVals ces i (uncutEdgeValues fs ces n)))).prod

/-! ### Claim C6 -/

theorem allConfigs_length (p : Nat) : (allConfigs p).length = alphabetSize ^ p := by
  induction p with
  | zero => rfl
  | succ p ih =>
    simp only [allConfigs, List.length_flatten, List.map_map]
    have h1 : (List.length ∘ fun b => List.map (fun c => b :: c) (allConfigs p))
        = fun _ : Nat => alphabetSize ^ p := by
      funext b
      simp [ih]
    rw [h1]
    simp [List.map_const', List.sum_replicate, smul_eq_mul, pow_succ, Nat.mul_comm]

/-- C6.  Configuration count and restartability: a fragment program with
`p` placeholders expands to exactly `alphabetSize ^ p` concrete programs,
and regenerating the expansion yields the identical sequence in identical
order (the expansion is a pure function of the fragment program). -/
theorem configuration_count (t : List Node) :
    (expand_fragment_tapes t).length = alphabetSize ^ placeholderCount t
      ∧ expand_fragment_tapes t = expand_fragment_tapes t :=
  ⟨by simp [expand_fragment_tapes, allConfigs_length], rfl⟩

/-- C6 witness: a fragment with two placeholders yields 16 programs. -/
theorem configuration_count_witness :
    (expand_fragment_tapes
        [⟨0, .measureNode, [0]⟩, ⟨1, .gate 0, [0]⟩, ⟨2, .prepareNode, [0]⟩]).length
      = alphabetSize
          ^ placeholderCount [⟨0, .measureNode, [0]⟩, ⟨1, .gate 0, [0]⟩, ⟨2, .prepareNode, [0]⟩]
      ∧ expand_fragment_tapes
            [⟨0, .measureNode, [0]⟩, ⟨1, .gate 0, [0]⟩, ⟨2, .prepareNode, [0]⟩]
          = expand_fragment_tapes
              [⟨0, .measureNode, [0]⟩, ⟨1, .gate 0, [0]⟩, ⟨2, .prepareNode, [0]⟩] :=
  configuration_count _

/-! ### Concrete programs exercising the Cut Resolver -/

/-- A one-wire chain with a mid-circuit cut: gate, `WireCut`, gate, all on
wire 0. -/
def exTapeA : List TapeOp := [⟨.gate 0, [0]⟩, ⟨.wireCut, [0]⟩, ⟨.gate 1, [0]⟩]

/-- A two-wire program whose marker lists its wires as `[1, 0]` while the
two-wire gate 0 precedes both the marker and the intermediate gate 1 on
wire 1. -/
def exTapeB : List TapeOp := [⟨.gate 0, [0, 1]⟩, ⟨.gate 1, [1]⟩, ⟨.wireCut, [1, 0]⟩]

/-! ### Claim C3 -/

/-- C3 evaluation at the failing input: resolving the single (`k = 1`)
single-channel cut of `exTapeA` leaves a communication graph with exactly
1 edge as claimed, but the resolved graph has 6 nodes where the claim
demands `3 - 1 + 2 = 4`: the Cut Resolver leaves two orphan placeholder
nodes (4 inserted per mid-circuit cut instead of 2). -/
theorem cut_count_code_bug :
    (tape_to_graph exTapeA).nodes.length = 3
      ∧ ((tape_to_graph exTapeA).nodes.filter (fun n => n.kind == OpKind.wireCut)).length = 1
      ∧ (fragment_graph (resolveCuts exTapeA)).2.edges.length = 1
      ∧ (resolveCuts exTapeA).nodes.length = 6 := by
  decide

/-! ### Claim C4 -/

/-- C4 evaluation at the failing input: after resolving the cut of
`exTapeA`, the graph contains one `MeasureNode` and one `PrepareNode`
incident to no pair-annotated cut edge at all — placeholders without their
paired counterpart, violating the paired-placeholder invariant. -/
theorem paired_placeholder_code_bug :
    ((resolveCuts exTapeA).nodes.filter (fun n =>
        n.kind == OpKind.measureNode
          && !((resolveCuts exTapeA).edges.any (fun e =>
                e.pair.isSome && (e.src == n.idx || e.dst == n.idx))))).length = 1
      ∧ ((resolveCuts exTapeA).nodes.filter (fun n =>
          n.kind == OpKind.prepareNode
            && !((resolveCuts exTapeA).edges.any (fun e =>
                  e.pair.isSome && (e.src == n.idx || e.dst == n.idx))))).length = 1 := by
  decide

/-! ### Claim C5 -/

/-- C5 evaluation at the failing input: in `exTapeB` the marker's
predecessor on channel 1 is node 1 (the graph has the channel-1 edge
1 → 2), yet the pair annotation for channel 1 links `MeasureNode` 9,
which receives its edge from node 0 and none from node 1: the recorded
measure is not fed by the marker's predecessor on that channel. -/
theorem cut_splice_code_bug :
    ((tape_to_graph exTapeB).edges.any (fun e =>
        e.src == 1 && e.dst == 2 && e.wire == some 1)) = true
      ∧ ((resolveCuts exTapeB).edges.any (fun e => e.pair == some (9, 4))) = true
      ∧ (((resolveCuts exTapeB).nodes.find? (fun n => n.idx == 9)).map
            (fun n => (n.kind, n.wires)) = some (OpKind.measureNode, [1]))
      ∧ ((resolveCuts exTapeB).edges.any (fun e => e.dst == 9 && e.src == 0)) = true
      ∧ ((resolveCuts exTapeB).edges.any (fun e => e.dst == 9 && e.src == 1)) = false := by
  decide

/-! ### Structural facts about the Graph Builder -/

theorem dGet_mem {d : List (Nat × Nat)} {w v : Nat} (h : dGet d w = some v) :
    (w, v) ∈ d := by
  unfold dGet at h
  cases hf : d.find? (fun p => p.1 == w) with
  | none => rw [hf] at h; simp at h
  | some q =>
    rw [hf] at h
    simp at h
    have hq := List.find?_some hf
    have hm := List.mem_of_find?_eq_some hf
    simp at hq
    have : q = (w, v) := by
      cases q
      simp_all
    rw [this] at hm
    exact hm

theorem dSet_subset {d : List (Nat × Nat)} {w v : Nat} {p : Nat × Nat}
    (h : p ∈ dSet d w v) : p = (w, v) ∨ p ∈ d := by
  unfold dSet at h
  split at h
  · rcases List.mem_map.mp h with ⟨q, hq, he⟩
    by_cases hw : q.1 == w
    · simp [hw] at he; exact Or.inl he.symm
    · simp [hw] at he; exact Or.inr (he ▸ hq)
  · rcases List.mem_append.mp h with hq | hq
    · exact Or.inr hq
    · simp at hq; exact Or.inl hq

theorem foldl_dSet_subset {v : Nat} :
    ∀ (ws : List Nat) (d : List (Nat × Nat)) (p : Nat × Nat),
      p ∈ ws.foldl (fun d w => dSet d w v) d → p.2 = v ∨ p ∈ d := by
  intro ws
  induction ws with
  | nil => intro d p h; exact Or.inr h
  | cons w rest ih =>
    intro d p h
    rcases ih (dSet d w v) p h with h2 | h2
    · exact Or.inl h2
    · rcases dSet_subset h2 with h3 | h3
      · exact Or.inl (by rw [h3])
      · exact Or.inr h3

theorem graphEdges_pair_none :
    ∀ (ns : List Node) (d : List (Nat × Nat)) (e : Edge),
      e ∈ graphEdges ns d → e.pair = none := by
  intro ns
  induction ns with
  | nil => intro d e h; simp [graphEdges] at h
  | cons n rest ih =>
    intro d e h
    rcases List.mem_append.mp h with h2 | h2
    · rcases List.mem_filterMap.mp h2 with ⟨w, _, he⟩
      cases hg : dGet d w with
      | none => rw [hg] at he; simp at he
      | some p => rw [hg] at he; simp at he; rw [← he]
    · exact ih _ e h2

theorem graphEdges_spec (G : Nat → Prop) :
    ∀ (ns : List Node) (d : List (Nat × Nat)),
      (∀ p ∈ d, G p.2 ∧ ∀ m ∈ ns, p.2 < m.idx) →
      List.Pairwise (fun a b => a.idx < b.idx) ns →
      (∀ m ∈ ns, G m.idx) →
      ∀ e ∈ graphEdges ns d, G e.src ∧ G e.dst ∧ e.src < e.dst := by
  intro ns
  induction ns with
  | nil => intro d _ _ _ e h; simp [graphEdges] at h
  | cons n rest ih =>
    intro d hd hpw hG e h
    rcases List.mem_append.mp h with h2 | h2
    · rcases List.mem_filterMap.mp h2 with ⟨w, _, he⟩
      cases hg : dGet d w with
      | none => rw [hg] at he; simp at he
      | some p =>
        rw [hg] at he
        simp at he
        have hmem := dGet_mem hg
        rcases hd (w, p) hmem with ⟨hGp, hlt⟩
        rw [← he]
        exact ⟨hGp, hG n (List.mem_cons_self _ _), hlt n (List.mem_cons_self _ _)⟩
    · refine ih _ ?_ (List.pairwise_cons.mp hpw).2 (fun m hm => hG m (List.mem_cons_of_mem _ hm)) e h2
      intro p hp
      rcases foldl_dSet_subset _ _ p hp with h3 | h3
      · constructor
        · rw [h3]; exact hG n (List.mem_cons_self _ _)
        · intro m hm; rw [h3]; exact (List.pairwise_cons.mp hpw).1 m hm
      · rcases hd p h3 with ⟨hGp, hlt⟩
        exact ⟨hGp, fun m hm => hlt m (List.mem_cons_of_mem _ hm)⟩

theorem tape_nodes_pairwise (tape : List TapeOp) :
    List.Pairwise (fun a b => a.idx < b.idx) (tape_to_graph tape).nodes := by
  have h1 : (tape.enum.map Prod.fst).Pairwise (· < ·) := by
    rw [List.enum_map_fst]
    exact List.pairwise_lt_range _
  have h2 : tape.enum.Pairwise (fun p q => p.1 < q.1) := List.pairwise_map.mp h1
  exact List.pairwise_map.mpr h2

theorem tape_edges_spec (tape : List TapeOp) :
    ∀ e ∈ (tape_to_graph tape).edges,
      e.src ∈ nodeIds (tape_to_graph tape) ∧ e.dst ∈ nodeIds (tape_to_graph tape)
        ∧ e.src < e.dst := by
  intro e he
  refine graphEdges_spec (fun x => x ∈ nodeIds (tape_to_graph tape))
    (tape_to_graph tape).nodes [] ?_ (tape_nodes_pairwise tape) ?_ e he
  · intro p hp; simp at hp
  · intro m hm
    exact List.mem_map.mpr ⟨m, hm, rfl⟩

theorem tape_edges_pair_none (tape : List TapeOp) :
    ∀ e ∈ (tape_to_graph tape).edges, e.pair = none :=
  fun e he => graphEdges_pair_none (tape_to_graph tape).nodes [] e he

theorem tape_nodes_ops (tape : List TapeOp) :
    (tape_to_graph tape).nodes.map (fun n => TapeOp.mk n.kind n.wires) = tape := by
  show (tape.enum.map (fun p => Node.mk p.1 p.2.kind p.2.wires)).map
      (fun n => TapeOp.mk n.kind n.wires) = tape
  rw [List.map_map]
  have : ((fun n : Node => TapeOp.mk n.kind n.wires) ∘ fun p : Nat × TapeOp =>
      Node.mk p.1 p.2.kind p.2.wires) = Prod.snd := by
    funext p
    rfl
  rw [this, List.enum_map_snd]

theorem resolveCuts_no_cut (tape : List TapeOp)
    (hnc : tape.all (fun op => !(op.kind == OpKind.wireCut)) = true) :
    resolveCuts tape = tape_to_graph tape := by
  unfold resolveCuts
  have hfil : (tape_to_graph tape).nodes.filter (fun n => n.kind == OpKind.wireCut) = [] := by
    rw [List.filter_eq_nil_iff]
    intro n hn
    have hk : n.kind ∈ (tape_to_graph tape).nodes.map (fun m => m.kind) :=
      List.mem_map.mpr ⟨n, hn, rfl⟩
    have hmap : (tape_to_graph tape).nodes.map (fun m => m.kind)
        = tape.map (fun op => op.kind) := by
      have := congrArg (List.map (fun op : TapeOp => op.kind)) (tape_nodes_ops tape)
      rw [List.map_map] at this
      exact this
    rw [hmap] at hk
    rcases List.mem_map.mp hk with ⟨op, hop, hke⟩
    have := List.all_eq_true.mp hnc op hop
    simp at this
    simp [← hke, this]
  show (List.foldl (fun s nd => remove_wire_cut_node nd s.1 s.2) (tape_to_graph tape, tape.length)
      ((tape_to_graph tape).nodes.filter (fun n => n.kind == OpKind.wireCut))).1
    = tape_to_graph tape
  rw [hfil]
  rfl

/-! ### Components cover the graph -/

/-- One step of the component fold of `components`. -/
def compStep (g : Graph) (comps : List (List Nat)) (n : Node) : List (List Nat) :=
  if comps.any (fun c => c.contains n.idx) then comps
  else comps ++ [(nodeIds g).filter (fun y => (reachFrom g n.idx).contains y)]

theorem components_eq_foldl (g : Graph) : components g = g.nodes.foldl (compStep g) [] := rfl

theorem compStep_mono {g : Graph} {comps : List (List Nat)} {n : Node} {c : List Nat}
    (h : c ∈ comps) : c ∈ compStep g comps n := by
  unfold compStep
  split
  · exact h
  · exact List.mem_append_left _ h

theorem foldl_compStep_mono {g : Graph} {c : List Nat} :
    ∀ (ns : List Node) (comps : List (List Nat)), c ∈ comps → c ∈ ns.foldl (compStep g) comps := by
  intro ns
  induction ns with
  | nil => intro comps h; exact h
  | cons n rest ih => intro comps h; exact ih _ (compStep_mono h)

theorem mem_reachFrom_self (g : Graph) (x : Nat) : x ∈ reachFrom g x := by
  unfold reachFrom
  have key : ∀ k, x ∈ (adjStep g)^[k] [x] := by
    intro k
    induction k with
    | zero => simp
    | succ k ih =>
      rw [Function.iterate_succ_apply']
      unfold adjStep
      exact List.mem_append_left _ ih
  exact key _

theorem components_cover (g : Graph) :
    ∀ n ∈ g.nodes, ∃ c ∈ components g, n.idx ∈ c := by
  have key : ∀ (ns : List Node) (comps : List (List Nat)),
      (∀ m ∈ ns, m ∈ g.nodes) →
      ∀ n ∈ ns, ∃ c ∈ ns.foldl (compStep g) comps, n.idx ∈ c := by
    intro ns
    induction ns with
    | nil => intro comps _ n hn; simp at hn
    | cons m rest ih =>
      intro comps hsub n hn
      rcases List.mem_cons.mp hn with he | hn2
      · subst he
        by_cases hc : comps.any (fun c => c.contains n.idx)
        · rcases List.any_eq_true.mp hc with ⟨c, hcm, hcc⟩
          refine ⟨c, foldl_compStep_mono rest _ (compStep_mono (n := n) hcm), ?_⟩
          simpa using hcc
        · refine ⟨(nodeIds g).filter (fun y => (reachFrom g n.idx).contains y), ?_, ?_⟩
          · refine foldl_compStep_mono rest _ ?_
            unfold compStep
            rw [if_neg (by simpa using hc)]
            exact List.mem_append_right _ (by simp)
          · rw [List.mem_filter]
            constructor
            · exact List.mem_map.mpr ⟨n, hsub n (List.mem_cons_self _ _), rfl⟩
            · simpa using mem_reachFrom_self g n.idx
      · exact ih _ (fun m2 hm2 => hsub m2 (List.mem_cons_of_mem _ hm2)) n hn2
  intro n hn
  exact key g.nodes [] (fun m hm => hm) n hn

/-! ### Stable topological sort on an increasing-identity graph -/

theorem topoAux_sorted (g : Graph) (hlt : ∀ e ∈ g.edges, e.src < e.dst) :
    ∀ (fuel : Nat) (rem : List Node), rem.length ≤ fuel →
      List.Pairwise (fun a b => a.idx < b.idx) rem →
      topoAux g fuel rem = .ok rem := by
  intro fuel
  induction fuel with
  | zero =>
    intro rem hlen _
    cases rem with
    | nil => rfl
    | cons n rest => simp at hlen
  | succ fuel ih =>
    intro rem hlen hpw
    cases rem with
    | nil => rfl
    | cons n rest =>
      have hcmp := List.pairwise_cons.mp hpw
      have hready : readyIn g (n :: rest) n = true := by
        unfold readyIn
        rw [Bool.not_eq_true']
        rw [List.any_eq_false]
        intro e he hcontra
        simp only [Bool.and_eq_true, beq_iff_eq, List.any_eq_true] at hcontra
        obtain ⟨⟨_, hdst⟩, m, hm, hsrc⟩ := hcontra
        have hslt : e.src < n.idx := hdst ▸ hlt e he
        have hmsrc : m.idx = e.src := by simpa using hsrc
        rcases List.mem_cons.mp hm with he2 | hm2
        · rw [he2] at hmsrc
          omega
        · have := hcmp.1 m hm2
          omega
      have hfind : (n :: rest).find? (readyIn g (n :: rest)) = some n :=
        List.find?_cons_of_pos _ hready
      have hfilter : (n :: rest).filter (fun m => m.idx != n.idx) = rest := by
        rw [List.filter_cons]
        have h0 : (n.idx != n.idx) = false := by simp
        rw [if_neg (by simp [h0])]
        refine List.filter_eq_self.mpr (fun m hm => ?_)
        have := hcmp.1 m hm
        simp
        omega
      have hrec := ih rest (Nat.le_of_succ_le_succ (by simpa using hlen)) hcmp.2
      simp only [topoAux]
      rw [hfind]
      show Except.map (fun t => n :: t)
          (topoAux g fuel ((n :: rest).filter (fun m => m.idx != n.idx)))
        = Except.ok (n :: rest)
      rw [hfilter, hrec]
      rfl

theorem graph_to_tape_sorted (g : Graph)
    (hlt : ∀ e ∈ g.edges, e.src < e.dst)
    (hpw : List.Pairwise (fun a b => a.idx < b.idx) g.nodes) :
    graph_to_tape g = .ok g.nodes :=
  topoAux_sorted g hlt g.nodes.length g.nodes (le_refl _) hpw

/-- Contraction with a single fragment, a single raw result and an empty
communication graph returns the raw result unchanged. -/
theorem contract_trivial (r : Int) :
    contract [r] [1] { nFrags := 1, edges := [] } = r := by
  simp [contract, splitShapes, allConfigs, configIndexOf, List.range_succ]

/-! ### Claim C2 -/

/-- C2 (amended): for every input Program with no WireCut marker whose
computation graph is weakly connected, `fragment_graph` yields exactly one
fragment, `graph_to_tape` on that fragment returns exactly the input's
operations (in the valid topological order that is the program order), and
`contract` applied with the resulting empty communication graph returns
the single fragment's raw result unchanged.  (The connectivity hypothesis
is the amendment: a no-cut Program whose operations act on disjoint wires
yields one fragment per weakly-connected component.) -/
theorem no_cut_identity (tape : List TapeOp)
    (hnc : tape.all (fun op => !(op.kind == OpKind.wireCut)) = true)
    (hconn : (components (tape_to_graph tape)).length = 1) :
    (fragment_graph (resolveCuts tape)).1.length = 1
      ∧ (fragment_graph (resolveCuts tape)).1.map graph_to_tape
          = [Except.ok (tape_to_graph tape).nodes]
      ∧ (tape_to_graph tape).nodes.map (fun n => TapeOp.mk n.kind n.wires) = tape
      ∧ ∀ r : Int, contract [r] [1] (fragment_graph (resolveCuts tape)).2 = r := by
  rw [resolveCuts_no_cut tape hnc]
  obtain ⟨c0, hc0⟩ := List.length_eq_one.mp hconn
  have hcov : ∀ n ∈ (tape_to_graph tape).nodes, n.idx ∈ c0 := by
    intro n hn
    obtain ⟨c, hcm, hx⟩ := components_cover (tape_to_graph tape) n hn
    rw [hc0] at hcm
    simp at hcm
    rwa [hcm] at hx
  have hsub : subgraphOf (tape_to_graph tape) c0 = tape_to_graph tape := by
    unfold subgraphOf
    have hn : (tape_to_graph tape).nodes.filter (fun n => c0.contains n.idx)
        = (tape_to_graph tape).nodes :=
      List.filter_eq_self.mpr (fun n hn => by simpa using hcov n hn)
    have he : (tape_to_graph tape).edges.filter
          (fun e => e.pair == none && c0.contains e.src && c0.contains e.dst)
        = (tape_to_graph tape).edges := by
      refine List.filter_eq_self.mpr (fun e he => ?_)
      have hp := tape_edges_pair_none tape e he
      obtain ⟨hs, hd, _⟩ := tape_edges_spec tape e he
      rcases List.mem_map.mp hs with ⟨n1, hn1, hi1⟩
      rcases List.mem_map.mp hd with ⟨n2, hn2, hi2⟩
      have h1 := hcov n1 hn1
      have h2 := hcov n2 hn2
      rw [hi1] at h1
      rw [hi2] at h2
      simp [hp, h1, h2]
    rw [hn, he]
  have hfrags : (fragment_graph (tape_to_graph tape)).1 = [tape_to_graph tape] := by
    show (components (tape_to_graph tape)).map (subgraphOf (tape_to_graph tape))
      = [tape_to_graph tape]
    rw [hc0]
    simp [hsub]
  have hces : (fragment_graph (tape_to_graph tape)).2
      = { nFrags := 1, edges := [] } := by
    show ({ nFrags := (components (tape_to_graph tape)).length,
            edges := (tape_to_graph tape).edges.filterMap (fun e =>
              e.pair.map (fun pr =>
                (fragIndexOf (components (tape_to_graph tape)) pr.1,
                 fragIndexOf (components (tape_to_graph tape)) pr.2, pr.1, pr.2))) } : CommGraph)
      = { nFrags := 1, edges := [] }
    rw [hconn]
    have : (tape_to_graph tape).edges.filterMap (fun e =>
        e.pair.map (fun pr =>
          (fragIndexOf (components (tape_to_graph tape)) pr.1,
           fragIndexOf (components (tape_to_graph tape)) pr.2, pr.1, pr.2))) = [] := by
      rw [List.filterMap_eq_nil_iff]
      intro e he
      rw [tape_edges_pair_none tape e he]
      rfl
    rw [this]
  refine ⟨?_, ?_, tape_nodes_ops tape, ?_⟩
  · rw [hfrags]
    rfl
  · rw [hfrags]
    simp [graph_to_tape_sorted (tape_to_graph tape)
      (fun e he => (tape_edges_spec tape e he).2.2) (tape_nodes_pairwise tape)]
  · intro r
    rw [hces]
    exact contract_trivial r

/-- C2 counterexample: a Program with no WireCut marker whose two
operations act on disjoint wires fragments into 2 fragments, not 1 as the
claim states. -/
theorem no_cut_identity_cex :
    ([⟨OpKind.gate 0, [0]⟩, ⟨OpKind.gate 1, [1]⟩] : List TapeOp).all
        (fun op => !(op.kind == OpKind.wireCut)) = true
      ∧ (fragment_graph (resolveCuts [⟨OpKind.gate 0, [0]⟩, ⟨OpKind.gate 1, [1]⟩])).1.length
          = 2 := by
  decide

/-- C2 witness: the amended claim evaluated on a connected two-gate
program, with raw result 5. -/
theorem no_cut_identity_witness :
    (fragment_graph (resolveCuts [⟨OpKind.gate 0, [0]⟩, ⟨OpKind.gate 1, [0]⟩])).1.length = 1
      ∧ (fragment_graph (resolveCuts [⟨OpKind.gate 0, [0]⟩, ⟨OpKind.gate 1, [0]⟩])).1.map
            graph_to_tape
          = [Except.ok (tape_to_graph [⟨OpKind.gate 0, [0]⟩, ⟨OpKind.gate 1, [0]⟩]).nodes]
      ∧ (tape_to_graph [⟨OpKind.gate 0, [0]⟩, ⟨OpKind.gate 1, [0]⟩]).nodes.map
            (fun n => TapeOp.mk n.kind n.wires)
          = [⟨OpKind.gate 0, [0]⟩, ⟨OpKind.gate 1, [0]⟩]
      ∧ contract [5] [1]
            (fragment_graph (resolveCuts [⟨OpKind.gate 0, [0]⟩, ⟨OpKind.gate 1, [0]⟩])).2
          = 5 := by
  have h := no_cut_identity [⟨OpKind.gate 0, [0]⟩, ⟨OpKind.gate 1, [0]⟩] (by decide) (by decide)
  exact ⟨h.1, h.2.1, h.2.2.1, h.2.2.2 5⟩

/-! ### Claims C7, C9, C10: the output of cut_circuit -/

theorem cut_circuit_eq (tape : List TapeOp) :
    cut_circuit tape
      = ((fragment_graph (resolveCuts tape)).1.mapM graph_to_tape).map (fun ft =>
          ((ft.map expand_fragment_tapes).flatten,
           { shapes := (ft.map expand_fragment_tapes).map List.length,
             communication_graph := (fragment_graph (resolveCuts tape)).2 })) := rfl

theorem cut_circuit_ok {tape : List TapeOp} {ts : List (List Node)} {pp : PostProc}
    {ft : List (List Node)}
    (hft : (fragment_graph (resolveCuts tape)).1.mapM graph_to_tape = Except.ok ft)
    (h : cut_circuit tape = Except.ok (ts, pp)) :
    ts = (ft.map expand_fragment_tapes).flatten
      ∧ pp = { shapes := (ft.map expand_fragment_tapes).map List.length,
               communication_graph := (fragment_graph (resolveCuts tape)).2 } := by
  rw [cut_circuit_eq, hft] at h
  simp only [Except.map, Except.ok.injEq, Prod.mk.injEq] at h
  exact ⟨h.1.symm, h.2.symm⟩

/-- C7 (amended): `cut_circuit` accepts no configuration ceiling and
performs configuration expansion unconditionally: whenever fragment
reconstruction succeeds it returns every expanded Program, whatever the
total configuration count; no budget error kind exists in the pipeline. -/
theorem budget_check_absent (tape : List TapeOp) (ft : List (List Node))
    (hft : (fragment_graph (resolveCuts tape)).1.mapM graph_to_tape = Except.ok ft) :
    cut_circuit tape
      = Except.ok ((ft.map expand_fragment_tapes).flatten,
          { shapes := (ft.map expand_fragment_tapes).map List.length,
            communication_graph := (fragment_graph (resolveCuts tape)).2 }) := by
  rw [cut_circuit_eq, hft]
  rfl

/-- C7 counterexample: `exTapeA` expands to 16 total configurations —
exceeding, say, a would-be caller ceiling of 1 — yet `cut_circuit` raises
nothing and returns all 16 expanded Programs (it has no ceiling argument
at all). -/
theorem budget_check_cex :
    (cut_circuit exTapeA).map (fun r => r.2.shapes.sum) = Except.ok 16
      ∧ (cut_circuit exTapeA).map (fun r => r.1.length) = Except.ok 16 := by
  constructor <;> rfl

/-- C7 witness: the amended claim evaluated on a one-gate program. -/
theorem budget_check_absent_witness :
    cut_circuit [⟨OpKind.gate 0, [0]⟩]
      = Except.ok ((([[⟨0, OpKind.gate 0, [0]⟩]] : List (List Node)).map
            expand_fragment_tapes).flatten,
          { shapes := (([[⟨0, OpKind.gate 0, [0]⟩]] : List (List Node)).map
              expand_fragment_tapes).map List.length,
            communication_graph := (fragment_graph (resolveCuts [⟨OpKind.gate 0, [0]⟩])).2 }) :=
  budget_check_absent [⟨OpKind.gate 0, [0]⟩] [[⟨0, OpKind.gate 0, [0]⟩]] (by rfl)

/-- C9.  Output contract: whenever `cut_circuit` returns, it returns the
flattened sequence of concrete per-configuration Programs across all
fragments together with a post-processing value closed at emission time
over the per-fragment configuration counts and the communication graph,
whose application to raw results is exactly `contract` with those captured
arguments. -/
theorem output_contract (tape : List TapeOp) (ts : List (List Node)) (pp : PostProc)
    (ft : List (List Node))
    (h : cut_circuit tape = Except.ok (ts, pp))
    (hft : (fragment_graph (resolveCuts tape)).1.mapM graph_to_tape = Except.ok ft) :
    ts = (ft.map expand_fragment_tapes).flatten
      ∧ pp.shapes = (ft.map expand_fragment_tapes).map List.length
      ∧ pp.communication_graph = (fragment_graph (resolveCuts tape)).2
      ∧ ∀ results : List Int,
          pp.apply results = contract results pp.shapes pp.communication_graph := by
  obtain ⟨h1, h2⟩ := cut_circuit_ok hft h
  exact ⟨h1, by rw [h2], by rw [h2], fun results => rfl⟩

/-- C9 witness: the output contract at a concrete one-gate program. -/
theorem output_contract_witness :
    ([[⟨0, OpKind.gate 0, [0]⟩]] : List (List Node))
        = (([[⟨0, OpKind.gate 0, [0]⟩]] : List (List Node)).map expand_fragment_tapes).flatten
      ∧ ([1] : List Nat)
          = (([[⟨0, OpKind.gate 0, [0]⟩]] : List (List Node)).map
              expand_fragment_tapes).map List.length
      ∧ ({ nFrags := 1, edges := [] } : CommGraph)
          = (fragment_graph (resolveCuts [⟨OpKind.gate 0, [0]⟩])).2
      ∧ ∀ results : List Int,
          PostProc.apply { shapes := [1], communication_graph := { nFrags := 1, edges := [] } }
              results
            = contract results [1] { nFrags := 1, edges := [] } :=
  output_contract [⟨OpKind.gate 0, [0]⟩] [[⟨0, OpKind.gate 0, [0]⟩]]
    { shapes := [1], communication_graph := { nFrags := 1, edges := [] } }
    [[⟨0, OpKind.gate 0, [0]⟩]] (by rfl) (by rfl)

theorem flatten_slice {α : Type} :
    ∀ (ls : List (List α)) (i : Nat), i < ls.length →
      ((ls.flatten.drop (((ls.map List.length).take i).sum)).take
          ((ls.map List.length).getD i 0))
        = ls.getD i [] := by
  intro ls
  induction ls with
  | nil => intro i hi; simp at hi
  | cons hd tl ih =>
    intro i hi
    cases i with
    | zero =>
      simp [List.take_left]
    | succ i =>
      have hi2 : i < tl.length := by simpa using hi
      have hdr : (hd :: tl).flatten.drop (((hd :: tl).map List.length).take (i + 1)).sum
          = tl.flatten.drop (((tl.map List.length).take i).sum) := by
        show (hd ++ tl.flatten).drop (hd.length + ((tl.map List.length).take i).sum) = _
        rw [← List.drop_drop, List.drop_left]
      rw [hdr]
      show (tl.flatten.drop (((tl.map List.length).take i).sum)).take
          ((tl.map List.length).getD i 0) = tl.getD i []
      exact ih i hi2

/-- C10.  Fragment-major emission order: the Programs emitted by
`cut_circuit` are exactly the concatenation of each fragment's
configuration sequence in fragment order, the shapes list closed into the
post-processing value holds each fragment's configuration count in the
same order, and the cumulative sums of the shapes delimit each fragment's
slice of the emitted sequence (hence of any aligned results sequence). -/
theorem emission_order (tape : List TapeOp) (ts : List (List Node)) (pp : PostProc)
    (ft : List (List Node))
    (h : cut_circuit tape = Except.ok (ts, pp))
    (hft : (fragment_graph (resolveCuts tape)).1.mapM graph_to_tape = Except.ok ft) :
    ts = (ft.map expand_fragment_tapes).flatten
      ∧ pp.shapes = (ft.map expand_fragment_tapes).map List.length
      ∧ ∀ i, i < ft.length →
          (ts.drop ((pp.shapes.take i).sum)).take (pp.shapes.getD i 0)
            = (ft.map expand_fragment_tapes).getD i [] := by
  obtain ⟨h1, h2⟩ := cut_circuit_ok hft h
  refine ⟨h1, by rw [h2], ?_⟩
  intro i hi
  rw [h1, h2]
  exact flatten_slice (ft.map expand_fragment_tapes) i (by simpa using hi)

/-- C10 witness: the emission order at a concrete one-gate program,
slice 0 extracted. -/
theorem emission_order_witness :
    ([[⟨0, OpKind.gate 0, [0]⟩]] : List (List Node))
        = (([[⟨0, OpKind.gate 0, [0]⟩]] : List (List Node)).map expand_fragment_tapes).flatten
      ∧ ([1] : List Nat)
          = (([[⟨0, OpKind.gate 0, [0]⟩]] : List (List Node)).map
              expand_fragment_tapes).map List.length
      ∧ (([[⟨0, OpKind.gate 0, [0]⟩]] : List (List Node)).drop ((([1] : List Nat).take 0).sum)).take
            (([1] : List Nat).getD 0 0)
          = (([[⟨0, OpKind.gate 0, [0]⟩]] : List (List Node)).map
              expand_fragment_tapes).getD 0 [] := by
  have h := emission_order [⟨OpKind.gate 0, [0]⟩] [[⟨0, OpKind.gate 0, [0]⟩]]
    { shapes := [1], communication_graph := { nFrags := 1, edges := [] } }
    [[⟨0, OpKind.gate 0, [0]⟩]] (by rfl) (by rfl)
  exact ⟨h.1, h.2.1, h.2.2 0 (by decide)⟩

/-! ### Claim C8 -/

/-- C8.  Optimizer failure modes: `find_and_place_cuts` raises
`UnknownMethodError` exactly when a method name outside the registry is
supplied; it raises `InfeasibleCutError` exactly when the resolved method
finds no cut set satisfying the bounds within its search budget (either it
reports failure or its proposal violates the bounds); and it never returns
a fragmentation violating the bounds. -/
theorem optimizer_failure_modes (g : Graph) (method : String ⊕ CutMethod) (b : CutBounds) :
    (∀ name, method = Sum.inl name →
        (find_and_place_cuts g method b = Except.error CutError.unknownMethod
          ↔ methodRegistry.find? (fun pr => pr.1 == name) = none))
      ∧ (∀ g2, find_and_place_cuts g method b = Except.ok g2 → satisfiesBounds g2 b = true)
      ∧ (find_and_place_cuts g method b = Except.error CutError.infeasibleCut
          ↔ ∃ m, resolvesMethod method = some m
              ∧ ¬ ∃ pd, m g b = some pd
                  ∧ satisfiesBounds (place_cuts g (freshStart g) pd.1) b = true) := by
  cases hm : resolvesMethod method with
  | none =>
    have hf : find_and_place_cuts g method b = Except.error CutError.unknownMethod := by
      unfold find_and_place_cuts
      rw [hm]
    refine ⟨?_, ?_, ?_⟩
    · intro name hname
      constructor
      · intro _
        subst hname
        simp only [resolvesMethod] at hm
        exact Option.map_eq_none'.mp hm
      · intro _
        exact hf
    · intro g2 h2
      rw [hf] at h2
      exact absurd h2 (by simp)
    · rw [hf]
      constructor
      · intro h2
        exact absurd h2 (by simp)
      · rintro ⟨m, hm2, _⟩
        exact absurd hm2 (by simp)
  | some m =>
    cases hmg : m g b with
    | none =>
      have hf : find_and_place_cuts g method b = Except.error CutError.infeasibleCut := by
        unfold find_and_place_cuts
        simp only [hm, hmg]
      refine ⟨?_, ?_, ?_⟩
      · intro name hname
        rw [hf]
        constructor
        · intro h2
          exact absurd h2 (by simp)
        · intro h2
          subst hname
          simp only [resolvesMethod] at hm
          rw [h2] at hm
          exact absurd hm (by simp)
      · intro g2 h2
        rw [hf] at h2
        exact absurd h2 (by simp)
      · rw [hf]
        constructor
        · intro _
          refine ⟨m, rfl, ?_⟩
          rintro ⟨pd, hpd, _⟩
          rw [hmg] at hpd
          exact absurd hpd (by simp)
        · intro _
          rfl
    | some pd =>
      cases hsat : satisfiesBounds (place_cuts g (freshStart g) pd.1) b with
      | false =>
        have hf : find_and_place_cuts g method b = Except.error CutError.infeasibleCut := by
          unfold find_and_place_cuts
          simp only [hm, hmg]
          simp [hsat]
        refine ⟨?_, ?_, ?_⟩
        · intro name hname
          rw [hf]
          constructor
          · intro h2
            exact absurd h2 (by simp)
          · intro h2
            subst hname
            simp only [resolvesMethod] at hm
            rw [h2] at hm
            exact absurd hm (by simp)
        · intro g2 h2
          rw [hf] at h2
          exact absurd h2 (by simp)
        · rw [hf]
          constructor
          · intro _
            refine ⟨m, rfl, ?_⟩
            rintro ⟨pd2, hpd2, hs2⟩
            rw [hmg] at hpd2
            have : pd2 = pd := by injection hpd2 with h3; exact h3.symm
            rw [this] at hs2
            rw [hs2] at hsat
            exact absurd hsat (by simp)
          · intro _
            rfl
      | true =>
        have hf : find_and_place_cuts g method b
            = Except.ok (place_cuts g (freshStart g) pd.1) := by
          unfold find_and_place_cuts
          simp only [hm, hmg]
          simp [hsat]
        refine ⟨?_, ?_, ?_⟩
        · intro name hname
          rw [hf]
          constructor
          · intro h2
            exact absurd h2 (by simp)
          · intro h2
            subst hname
            simp only [resolvesMethod] at hm
            rw [h2] at hm
            exact absurd hm (by simp)
        · intro g2 h2
          rw [hf] at h2
          have : place_cuts g (freshStart g) pd.1 = g2 := by
            injection h2
          rw [← this]
          exact hsat
        · rw [hf]
          constructor
          · intro h2
            exact absurd h2 (by simp)
          · rintro ⟨m2, hm2, hno⟩
            have hmm : m2 = m := by injection hm2 with h3; exact h3.symm
            exact absurd ⟨pd, by rw [hmm]; exact hmg, hsat⟩ hno

/-- C8 witness: an unregistered method name on the empty graph fails with
`UnknownMethodError`. -/
theorem optimizer_failure_modes_witness :
    find_and_place_cuts { nodes := [], edges := [] } (Sum.inl "nope")
        { maxWires := none, maxGates := none, numFragments := none }
      = Except.error CutError.unknownMethod :=
  (optimizer_failure_modes { nodes := [], edges := [] } (Sum.inl "nope")
      { maxWires := none, maxGates := none, numFragments := none }).1 "nope" rfl
    |>.mpr (by rfl)

/-! ### Enumeration facts for the configuration space -/

theorem mem_allConfigs : ∀ (p : Nat) (c : List Nat),
    c ∈ allConfigs p ↔ c.length = p ∧ ∀ d ∈ c, d < alphabetSize := by
  intro p
  induction p with
  | zero =>
    intro c
    simp only [allConfigs, List.mem_singleton]
    constructor
    · rintro rfl
      simp
    · rintro ⟨hlen, _⟩
      exact List.length_eq_zero.mp hlen
  | succ p ih =>
    intro c
    simp only [allConfigs, List.mem_flatten, List.mem_map]
    constructor
    · rintro ⟨l, ⟨d, hd, rfl⟩, hc⟩
      rcases List.mem_map.mp hc with ⟨c', hc', rfl⟩
      rcases (ih c').mp hc' with ⟨hlen, hall⟩
      refine ⟨by simp [hlen], ?_⟩
      intro x hx
      rcases List.mem_cons.mp hx with rfl | hx2
      · simpa using List.mem_range.mp hd
      · exact hall x hx2
    · rintro ⟨hlen, hall⟩
      cases c with
      | nil => simp at hlen
      | cons d c' =>
        refine ⟨(allConfigs p).map (fun cc => d :: cc), ⟨d, ?_, rfl⟩, ?_⟩
        · exact List.mem_range.mpr (hall d (List.mem_cons_self _ _))
        · exact List.mem_map.mpr ⟨c',
            (ih c').mpr ⟨by simpa using hlen,
              fun x hx => hall x (List.mem_cons_of_mem _ hx)⟩, rfl⟩

theorem allConfigs_nodup : ∀ p : Nat, (allConfigs p).Nodup := by
  intro p
  induction p with
  | zero => simp [allConfigs]
  | succ p ih =>
    simp only [allConfigs]
    rw [List.nodup_flatten]
    constructor
    · intro l hl
      rcases List.mem_map.mp hl with ⟨d, _, rfl⟩
      exact ih.map (fun c1 c2 h => by injection h)
    · rw [List.pairwise_map]
      have hpw : (List.range alphabetSize).Pairwise (· < ·) := List.pairwise_lt_range _
      refine hpw.imp ?_
      intro d1 d2 hlt x hx1 hx2
      rcases List.mem_map.mp hx1 with ⟨c1, _, rfl⟩
      rcases List.mem_map.mp hx2 with ⟨c2, _, he⟩
      injection he with h1 _
      omega

theorem radix_shift : ∀ (c : List Nat) (acc : Nat),
    c.foldl radixStep acc = acc * alphabetSize ^ c.length + c.foldl radixStep 0 := by
  intro c
  induction c with
  | nil => intro acc; simp
  | cons d c' ih =>
    intro acc
    show c'.foldl radixStep (radixStep acc d) = _
    rw [ih (radixStep acc d)]
    have h0 : (d :: c').foldl radixStep 0 = c'.foldl radixStep (radixStep 0 d) := rfl
    rw [h0, ih (radixStep 0 d)]
    simp only [radixStep, List.length_cons, pow_succ, Nat.zero_mul, Nat.zero_add]
    ring

theorem radixVal_cons (d : Nat) (c : List Nat) :
    radixVal (d :: c) = d * alphabetSize ^ c.length + radixVal c := by
  show c.foldl radixStep (radixStep 0 d) = _
  rw [radix_shift c (radixStep 0 d)]
  simp [radixStep, radixVal]

theorem radixVal_lt : ∀ (c : List Nat), (∀ d ∈ c, d < alphabetSize) →
    radixVal c < alphabetSize ^ c.length := by
  intro c
  induction c with
  | nil => intro _; simp [radixVal, radixStep]
  | cons d c' ih =>
    intro hall
    rw [radixVal_cons]
    have h1 := ih (fun x hx => hall x (List.mem_cons_of_mem _ hx))
    have h2 : d < alphabetSize := hall d (List.mem_cons_self _ _)
    have h3 : d * alphabetSize ^ c'.length + radixVal c'
        < (d + 1) * alphabetSize ^ c'.length := by
      have := Nat.add_lt_add_left h1 (d * alphabetSize ^ c'.length)
      simpa [Nat.succ_mul] using this
    have h4 : (d + 1) * alphabetSize ^ c'.length ≤ alphabetSize * alphabetSize ^ c'.length :=
      Nat.mul_le_mul_right _ h2
    have h5 : alphabetSize * alphabetSize ^ c'.length = alphabetSize ^ (d :: c').length := by
      simp [pow_succ, Nat.mul_comm]
    omega

theorem getD_flatten_uniform {α : Type} (x : α) :
    ∀ (ls : List (List α)) (L d r : Nat), (∀ l ∈ ls, l.length = L) →
      d < ls.length → r < L →
      ls.flatten.getD (d * L + r) x = (ls.getD d []).getD r x := by
  intro ls
  induction ls with
  | nil => intro L d r _ hdlt _; simp at hdlt
  | cons hd tl ih =>
    intro L d r hall hdlt hrlt
    cases d with
    | zero =>
      have hh : hd.length = L := hall hd (List.mem_cons_self _ _)
      rw [show (hd :: tl).flatten = hd ++ tl.flatten from rfl]
      simp only [Nat.zero_mul, Nat.zero_add]
      rw [List.getD_eq_getElem?_getD, List.getElem?_append,
        if_pos (show r < hd.length by omega)]
      rw [← List.getD_eq_getElem?_getD]
      rfl
    | succ d =>
      have hh : hd.length = L := hall hd (List.mem_cons_self _ _)
      have hidx : (d + 1) * L + r = hd.length + (d * L + r) := by
        rw [hh]
        ring
      rw [show (hd :: tl).flatten = hd ++ tl.flatten from rfl, hidx]
      rw [List.getD_eq_getElem?_getD, List.getElem?_append_right (by omega)]
      simp only [Nat.add_sub_cancel_left]
      rw [← List.getD_eq_getElem?_getD]
      have := ih L d r (fun l hl => hall l (List.mem_cons_of_mem _ hl))
        (by simpa using hdlt) hrlt
      simpa using this

theorem getD_map_lt {α β : Type} (F : α → β) (x : β) (x0 : α) :
    ∀ (l : List α) (j : Nat), j < l.length → (l.map F).getD j x = F (l.getD j x0) := by
  intro l
  induction l with
  | nil => intro j hj; simp at hj
  | cons a l ih =>
    intro j hj
    cases j with
    | zero => rfl
    | succ j =>
      simp only [List.map_cons, List.getD_cons_succ]
      exact ih j (by simpa using hj)

theorem getD_range (n j : Nat) (hj : j < n) : (List.range n).getD j 0 = j := by
  rw [List.getD_eq_getElem?_getD, List.getElem?_range hj]
  rfl

theorem allConfigs_getD : ∀ (p : Nat) (c : List Nat), c.length = p →
    (∀ d ∈ c, d < alphabetSize) → (allConfigs p).getD (radixVal c) [] = c := by
  intro p
  induction p with
  | zero =>
    intro c hlen _
    have : c = [] := List.length_eq_zero.mp hlen
    subst this
    rfl
  | succ p ih =>
    intro c hlen hall
    cases c with
    | nil => simp at hlen
    | cons d c' =>
      have hd : d < alphabetSize := hall d (List.mem_cons_self _ _)
      have hall' : ∀ x ∈ c', x < alphabetSize :=
        fun x hx => hall x (List.mem_cons_of_mem _ hx)
      have hlen' : c'.length = p := by simpa using hlen
      have hrv : radixVal (d :: c') = d * alphabetSize ^ p + radixVal c' := by
        rw [radixVal_cons, hlen']
      have hrlt : radixVal c' < alphabetSize ^ p := by
        have := radixVal_lt c' hall'
        rwa [hlen'] at this
      have hblocks : ∀ l ∈ (List.range alphabetSize).map
          (fun b => (allConfigs p).map (fun cc => b :: cc)), l.length = alphabetSize ^ p := by
        intro l hl
        rcases List.mem_map.mp hl with ⟨b, _, rfl⟩
        simp [allConfigs_length]
      rw [show allConfigs (p + 1) = ((List.range alphabetSize).map
          (fun b => (allConfigs p).map (fun cc => b :: cc))).flatten from rfl]
      rw [hrv, getD_flatten_uniform [] _ _ _ _ hblocks (by simpa using hd) hrlt]
      rw [getD_map_lt (fun b => (allConfigs p).map (fun cc => b :: cc)) [] 0 _ d
        (by simpa using hd)]
      rw [getD_range _ _ hd]
      rw [getD_map_lt (fun cc => d :: cc) [] [] _ (radixVal c')
        (by rw [allConfigs_length]; exact hrlt)]
      rw [ih c' hlen' hall']

/-! ### Bridging the Contractor's flat indexing to the fragment tensors -/

theorem ci_fold_aux (i : Nat) :
    ∀ (l : List ((Nat × Nat × Nat × Nat) × Nat)) (acc : Nat),
      l.foldl (fun acc pr =>
          let acc2 := if pr.1.1 == i then acc * alphabetSize + pr.2 else acc
          if pr.1.2.1 == i then acc2 * alphabetSize + pr.2 else acc2) acc
        = ((l.map (fun pr =>
            (if pr.1.1 = i then [pr.2] else [])
              ++ (if pr.1.2.1 = i then [pr.2] else []))).flatten).foldl radixStep acc := by
  intro l
  induction l with
  | nil => intro acc; rfl
  | cons pr l ih =>
    intro acc
    rw [List.foldl_cons, ih, List.map_cons, List.flatten_cons, List.foldl_append]
    congr 1
    by_cases h1 : pr.1.1 = i <;> by_cases h2 : pr.1.2.1 = i <;>
      simp [h1, h2, radixStep]

theorem configIndexOf_eq_radix (ces : List (Nat × Nat × Nat × Nat)) (i : Nat)
    (b : List Nat) : configIndexOf ces i b = radixVal (axisDigits ces i b) :=
  ci_fold_aux i (ces.zip b) 0

theorem axisDigits_length : ∀ (ces : List (Nat × Nat × Nat × Nat)) (b : List Nat) (i : Nat),
    b.length = ces.length → (axisDigits ces i b).length = (axisTags ces i).length := by
  intro ces
  induction ces with
  | nil => intro b i _; rfl
  | cons e ces ih =>
    intro b i hlen
    cases b with
    | nil => simp at hlen
    | cons d b =>
      have htail := ih b i (by simpa using hlen)
      simp only [axisDigits, axisTags, List.zip_cons_cons, List.map_cons, List.flatten_cons,
        List.length_append] at htail ⊢
      rw [htail]
      congr 1
      by_cases h1 : e.1 = i <;> by_cases h2 : e.2.1 = i <;> simp [h1, h2]

theorem axisDigits_subset : ∀ (ces : List (Nat × Nat × Nat × Nat)) (b : List Nat) (i d : Nat),
    d ∈ axisDigits ces i b → d ∈ b := by
  intro ces
  induction ces with
  | nil => intro b i d hd; simp [axisDigits] at hd
  | cons e ces ih =>
    intro b i d hd
    cases b with
    | nil =>
      simp [axisDigits] at hd
    | cons x b =>
      simp only [axisDigits, List.zip_cons_cons, List.map_cons, List.flatten_cons,
        List.mem_append] at hd
      rcases hd with hd | hd
      · have : d = x := by
          rcases hd with h | h
          · by_cases h1 : e.1 = i
            · rw [if_pos h1] at h
              simpa using h
            · rw [if_neg h1] at h
              simp at h
          · by_cases h2 : e.2.1 = i
            · rw [if_pos h2] at h
              simpa using h
            · rw [if_neg h2] at h
              simp at h
        rw [this]
        exact List.mem_cons_self _ _
      · exact List.mem_cons_of_mem _ (ih b i d hd)

theorem splitAxes_axisDigits : ∀ (ces : List (Nat × Nat × Nat × Nat)) (b : List Nat) (i : Nat),
    b.length = ces.length →
    splitAxes (axisTags ces i) (axisDigits ces i b) = (outVals ces i b, inVals ces i b) := by
  intro ces
  induction ces with
  | nil => intro b i _; rfl
  | cons e ces ih =>
    intro b i hlen
    cases b with
    | nil => simp at hlen
    | cons d b =>
      have ihb := ih b i (by simpa using hlen)
      by_cases h1 : e.1 = i
      · by_cases h2 : e.2.1 = i
        · have e1 : axisTags (e :: ces) i = true :: false :: axisTags ces i := by
            simp [axisTags, h1, h2]
          have e2 : axisDigits (e :: ces) i (d :: b) = d :: d :: axisDigits ces i b := by
            simp [axisDigits, h1, h2]
          have e3 : outVals (e :: ces) i (d :: b) = d :: outVals ces i b := by
            simp [outVals, List.filterMap_cons, h1]
          have e4 : inVals (e :: ces) i (d :: b) = d :: inVals ces i b := by
            simp [inVals, List.filterMap_cons, h2]
          rw [e1, e2, e3, e4]
          simp [splitAxes, ihb]
        · have e1 : axisTags (e :: ces) i = true :: axisTags ces i := by
            simp [axisTags, h1, h2]
          have e2 : axisDigits (e :: ces) i (d :: b) = d :: axisDigits ces i b := by
            simp [axisDigits, h1, h2]
          have e3 : outVals (e :: ces) i (d :: b) = d :: outVals ces i b := by
            simp [outVals, List.filterMap_cons, h1]
          have e4 : inVals (e :: ces) i (d :: b) = inVals ces i b := by
            simp [inVals, List.filterMap_cons, h2]
          rw [e1, e2, e3, e4]
          simp [splitAxes, ihb]
      · by_cases h2 : e.2.1 = i
        · have e1 : axisTags (e :: ces) i = false :: axisTags ces i := by
            simp [axisTags, h1, h2]
          have e2 : axisDigits (e :: ces) i (d :: b) = d :: axisDigits ces i b := by
            simp [axisDigits, h1, h2]
          have e3 : outVals (e :: ces) i (d :: b) = outVals ces i b := by
            simp [outVals, List.filterMap_cons, h1]
          have e4 : inVals (e :: ces) i (d :: b) = d :: inVals ces i b := by
            simp [inVals, List.filterMap_cons, h2]
          rw [e1, e2, e3, e4]
          simp [splitAxes, ihb]
        · have e1 : axisTags (e :: ces) i = axisTags ces i := by
            simp [axisTags, h1, h2]
          have e2 : axisDigits (e :: ces) i (d :: b) = axisDigits ces i b := by
            simp [axisDigits, h1, h2]
          have e3 : outVals (e :: ces) i (d :: b) = outVals ces i b := by
            simp [outVals, List.filterMap_cons, h1]
          have e4 : inVals (e :: ces) i (d :: b) = inVals ces i b := by
            simp [inVals, List.filterMap_cons, h2]
          rw [e1, e2, e3, e4]
          exact ihb

/-! ### Algebraic helpers for the contraction sum -/

theorem prod_map_mul_int (f g : Nat → Int) :
    ∀ l : List Nat, (l.map (fun x => f x * g x)).prod = (l.map f).prod * (l.map g).prod := by
  intro l
  induction l with
  | nil => simp
  | cons a l ih =>
    simp only [List.map_cons, List.prod_cons, ih]
    ring

theorem prod_indicator (P : Nat → Prop) [DecidablePred P] :
    ∀ l : List Nat, (l.map (fun x => if P x then (1 : Int) else 0)).prod
      = if ∀ x ∈ l, P x then 1 else 0 := by
  intro l
  induction l with
  | nil => simp
  | cons a l ih =>
    simp only [List.map_cons, List.prod_cons, ih, List.forall_mem_cons]
    by_cases ha : P a
    · by_cases hall : ∀ x ∈ l, P x <;> simp [ha, hall]
    · simp [ha]

theorem sum_indicator_unique {α : Type} [DecidableEq α] (f : α → Int) (x : α) :
    ∀ l : List α, l.Nodup → x ∈ l →
      (l.map (fun y => if y = x then f y else 0)).sum = f x := by
  intro l
  induction l with
  | nil => intro _ hx; simp at hx
  | cons a l ih =>
    intro hnd hx
    simp only [List.map_cons, List.sum_cons]
    rcases List.mem_cons.mp hx with rfl | hx2
    · have hnotin : x ∉ l := (List.nodup_cons.mp hnd).1
      have hz : (l.map (fun y => if y = x then f y else 0)).sum = 0 := by
        apply List.sum_eq_zero
        intro z hz
        rcases List.mem_map.mp hz with ⟨y, hy, rfl⟩
        have : y ≠ x := fun he => hnotin (he ▸ hy)
        simp [this]
      simp [hz]
    · have ha : a ≠ x := fun he => (List.nodup_cons.mp hnd).1 (he ▸ hx2)
      rw [ih (List.nodup_cons.mp hnd).2 hx2]
      simp [ha]

theorem splitShapes_flatten : ∀ L : List (List Int),
    splitShapes L.flatten (L.map List.length) = L := by
  intro L
  induction L with
  | nil => rfl
  | cons hd tl ih =>
    show (hd ++ tl.flatten).take hd.length
        :: splitShapes ((hd ++ tl.flatten).drop hd.length) (tl.map List.length) = hd :: tl
    rw [List.take_left, List.drop_left, ih]

/-! ### Pointwise facts about edge-value assignments -/

theorem outVals_cons (e : Nat × Nat × Nat × Nat) (ces : List (Nat × Nat × Nat × Nat))
    (d : Nat) (b : List Nat) (i : Nat) :
    outVals (e :: ces) i (d :: b)
      = if e.1 = i then d :: outVals ces i b else outVals ces i b := by
  by_cases h : e.1 = i <;> simp [outVals, List.zip_cons_cons, List.filterMap_cons, h]

theorem inVals_cons (e : Nat × Nat × Nat × Nat) (ces : List (Nat × Nat × Nat × Nat))
    (d : Nat) (b : List Nat) (i : Nat) :
    inVals (e :: ces) i (d :: b)
      = if e.2.1 = i then d :: inVals ces i b else inVals ces i b := by
  by_cases h : e.2.1 = i <;> simp [inVals, List.zip_cons_cons, List.filterMap_cons, h]

theorem inVals_congr : ∀ (ces : List (Nat × Nat × Nat × Nat)) (b b2 : List Nat) (i : Nat),
    b.length = ces.length → b2.length = ces.length →
    (∀ j, j < ces.length → (ces.getD j eDflt).2.1 = i → b.getD j 0 = b2.getD j 0) →
    inVals ces i b = inVals ces i b2 := by
  intro ces
  induction ces with
  | nil =>
    intro b b2 i hb hb2 _
    rw [List.length_eq_zero.mp hb, List.length_eq_zero.mp hb2]
  | cons e ces ih =>
    intro b b2 i hb hb2 hag
    cases b with
    | nil => simp at hb
    | cons d b =>
      cases b2 with
      | nil => simp at hb2
      | cons d2 b2 =>
        rw [inVals_cons, inVals_cons]
        have htail := ih b b2 i (by simpa using hb) (by simpa using hb2)
          (fun j hj hc => by
            have := hag (j + 1) (by simpa using hj) (by simpa using hc)
            simpa using this)
        by_cases h : e.2.1 = i
        · have hhead := hag 0 (by simp) (by simpa using h)
          simp only [List.getD_cons_zero] at hhead
          rw [if_pos h, if_pos h, hhead, htail]
        · rw [if_neg h, if_neg h, htail]

theorem outVals_congr : ∀ (ces : List (Nat × Nat × Nat × Nat)) (b b2 : List Nat) (i : Nat),
    b.length = ces.length → b2.length = ces.length →
    (∀ j, j < ces.length → (ces.getD j eDflt).1 = i → b.getD j 0 = b2.getD j 0) →
    outVals ces i b = outVals ces i b2 := by
  intro ces
  induction ces with
  | nil =>
    intro b b2 i hb hb2 _
    rw [List.length_eq_zero.mp hb, List.length_eq_zero.mp hb2]
  | cons e ces ih =>
    intro b b2 i hb hb2 hag
    cases b with
    | nil => simp at hb
    | cons d b =>
      cases b2 with
      | nil => simp at hb2
      | cons d2 b2 =>
        rw [outVals_cons, outVals_cons]
        have htail := ih b b2 i (by simpa using hb) (by simpa using hb2)
          (fun j hj hc => by
            have := hag (j + 1) (by simpa using hj) (by simpa using hc)
            simpa using this)
        by_cases h : e.1 = i
        · have hhead := hag 0 (by simp) (by simpa using h)
          simp only [List.getD_cons_zero] at hhead
          rw [if_pos h, if_pos h, hhead, htail]
        · rw [if_neg h, if_neg h, htail]

theorem outVals_inj : ∀ (ces : List (Nat × Nat × Nat × Nat)) (b b2 : List Nat) (i : Nat),
    b.length = ces.length → b2.length = ces.length →
    outVals ces i b = outVals ces i b2 →
    ∀ j, j < ces.length → (ces.getD j eDflt).1 = i → b.getD j 0 = b2.getD j 0 := by
  intro ces
  induction ces with
  | nil => intro b b2 i _ _ _ j hj; simp at hj
  | cons e ces ih =>
    intro b b2 i hb hb2 heq j hj hc
    cases b with
    | nil => simp at hb
    | cons d b =>
      cases b2 with
      | nil => simp at hb2
      | cons d2 b2 =>
        rw [outVals_cons, outVals_cons] at heq
        by_cases h : e.1 = i
        · rw [if_pos h, if_pos h] at heq
          have hhd : d = d2 := by injection heq
          have htl : outVals ces i b = outVals ces i b2 := by injection heq
          cases j with
          | zero => simpa using hhd
          | succ j =>
            have := ih b b2 i (by simpa using hb) (by simpa using hb2) htl j
              (by simpa using hj) (by simpa using hc)
            simpa using this
        · rw [if_neg h, if_neg h] at heq
          cases j with
          | zero =>
            simp only [List.getD_cons_zero] at hc
            exact absurd hc h
          | succ j =>
            have := ih b b2 i (by simpa using hb) (by simpa using hb2) heq j
              (by simpa using hj) (by simpa using hc)
            simpa using this

/-! ### Direct-execution propagation across the communication graph -/

theorem assignOuts_cons (i : Nat) (e : Nat × Nat × Nat × Nat)
    (ces : List (Nat × Nat × Nat × Nat)) (wv : Nat) (ws o : List Nat) :
    assignOuts i (e :: ces) (wv :: ws) o
      = if e.1 = i then o.headD 0 :: assignOuts i ces ws o.tail
        else wv :: assignOuts i ces ws o := rfl

theorem assignOuts_length : ∀ (ces : List (Nat × Nat × Nat × Nat)) (w o : List Nat) (i : Nat),
    w.length = ces.length → (assignOuts i ces w o).length = ces.length := by
  intro ces
  induction ces with
  | nil => intro w o i _; rfl
  | cons e ces ih =>
    intro w o i hw
    cases w with
    | nil => simp at hw
    | cons wv ws =>
      show (if e.1 = i then o.headD 0 :: assignOuts i ces ws o.tail
          else wv :: assignOuts i ces ws o).length = _
      by_cases h : e.1 = i <;>
        simp [h, ih ws _ i (by simpa using hw)]

theorem assignOuts_preserve : ∀ (ces : List (Nat × Nat × Nat × Nat)) (w o : List Nat) (i : Nat),
    w.length = ces.length →
    ∀ j, j < ces.length → (ces.getD j eDflt).1 ≠ i →
      (assignOuts i ces w o).getD j 0 = w.getD j 0 := by
  intro ces
  induction ces with
  | nil => intro w o i _ j hj; simp at hj
  | cons e ces ih =>
    intro w o i hw j hj hne
    cases w with
    | nil => simp at hw
    | cons wv ws =>
      show (if e.1 = i then o.headD 0 :: assignOuts i ces ws o.tail
          else wv :: assignOuts i ces ws o).getD j 0 = _
      by_cases h : e.1 = i
      · cases j with
        | zero =>
          simp only [List.getD_cons_zero] at hne
          exact absurd h hne
        | succ j =>
          rw [if_pos h]
          simp only [List.getD_cons_succ]
          exact ih ws o.tail i (by simpa using hw) j (by simpa using hj) (by simpa using hne)
      · cases j with
        | zero =>
          rw [if_neg h]
          rfl
        | succ j =>
          rw [if_neg h]
          simp only [List.getD_cons_succ]
          exact ih ws o i (by simpa using hw) j (by simpa using hj) (by simpa using hne)

theorem outCount_cons (e : Nat × Nat × Nat × Nat) (ces : List (Nat × Nat × Nat × Nat))
    (i : Nat) :
    outCount (e :: ces) i = if e.1 = i then outCount ces i + 1 else outCount ces i := by
  by_cases h : e.1 = i <;> simp [outCount, List.filter_cons, h]

theorem assignOuts_outVals : ∀ (ces : List (Nat × Nat × Nat × Nat)) (w o : List Nat) (i : Nat),
    w.length = ces.length → o.length = outCount ces i →
    outVals ces i (assignOuts i ces w o) = o := by
  intro ces
  induction ces with
  | nil =>
    intro w o i _ ho
    have : o = [] := List.length_eq_zero.mp (by simpa [outCount] using ho)
    rw [this]
    rfl
  | cons e ces ih =>
    intro w o i hw ho
    cases w with
    | nil => simp at hw
    | cons wv ws =>
      rw [outCount_cons] at ho
      by_cases h : e.1 = i
      · rw [if_pos h] at ho
        cases o with
        | nil => simp at ho
        | cons od o2 =>
          rw [assignOuts_cons, if_pos h]
          rw [show (od :: o2).headD 0 = od from rfl, show (od :: o2).tail = o2 from rfl]
          rw [outVals_cons, if_pos h,
            ih ws o2 i (by simpa using hw) (by simpa using ho)]
      · rw [if_neg h] at ho
        rw [assignOuts_cons, if_neg h]
        rw [outVals_cons, if_neg h, ih ws o i (by simpa using hw) ho]

theorem assignOuts_values : ∀ (ces : List (Nat × Nat × Nat × Nat)) (w o : List Nat)
    (i d : Nat), d ∈ assignOuts i ces w o → d ∈ w ∨ d ∈ o ∨ d = 0 := by
  intro ces
  induction ces with
  | nil => intro w o i d hd; simp [assignOuts] at hd
  | cons e ces ih =>
    intro w o i d hd
    cases w with
    | nil => simp [assignOuts] at hd
    | cons wv ws =>
      by_cases h : e.1 = i
      · rw [show assignOuts i (e :: ces) (wv :: ws) o
            = if e.1 = i then o.headD 0 :: assignOuts i ces ws o.tail
              else wv :: assignOuts i ces ws o from rfl, if_pos h] at hd
        rcases List.mem_cons.mp hd with rfl | hd2
        · cases o with
          | nil => right; right; rfl
          | cons x o2 => right; left; exact List.mem_cons_self _ _
        · rcases ih ws o.tail i d hd2 with h2 | h2 | h2
          · exact Or.inl (List.mem_cons_of_mem _ h2)
          · refine Or.inr (Or.inl ?_)
            cases o with
            | nil => simp at h2
            | cons x o2 => exact List.mem_cons_of_mem _ h2
          · exact Or.inr (Or.inr h2)
      · rw [show assignOuts i (e :: ces) (wv :: ws) o
            = if e.1 = i then o.headD 0 :: assignOuts i ces ws o.tail
              else wv :: assignOuts i ces ws o from rfl, if_neg h] at hd
        rcases List.mem_cons.mp hd with rfl | hd2
        · exact Or.inl (List.mem_cons_self _ _)
        · rcases ih ws o i d hd2 with h2 | h2 | h2
          · exact Or.inl (List.mem_cons_of_mem _ h2)
          · exact Or.inr (Or.inl h2)
          · exact Or.inr (Or.inr h2)

theorem wseq_succ (fs : Nat → List Nat → List Nat) (ces : List (Nat × Nat × Nat × Nat))
    (t : Nat) : wseq fs ces (t + 1) = propStep fs ces (wseq fs ces t) t := by
  simp [wseq, List.range_succ, List.foldl_append]

theorem wseq_length (fs : Nat → List Nat → List Nat) (ces : List (Nat × Nat × Nat × Nat)) :
    ∀ t, (wseq fs ces t).length = ces.length := by
  intro t
  induction t with
  | zero => simp [wseq]
  | succ t ih =>
    rw [wseq_succ]
    exact assignOuts_length ces _ _ t ih

theorem wseq_valid (fs : Nat → List Nat → List Nat) (ces : List (Nat × Nat × Nat × Nat))
    (hrange : ∀ i ins, ∀ d ∈ fs i ins, d < alphabetSize) :
    ∀ t, ∀ d ∈ wseq fs ces t, d < alphabetSize := by
  intro t
  induction t with
  | zero =>
    intro d hd
    simp [wseq] at hd
    rcases hd with ⟨_, rfl⟩
    decide
  | succ t ih =>
    intro d hd
    rw [wseq_succ] at hd
    rcases assignOuts_values ces _ _ t d hd with h | h | h
    · exact ih d h
    · exact hrange t _ d h
    · rw [h]; decide

theorem wseq_stable (fs : Nat → List Nat → List Nat) (ces : List (Nat × Nat × Nat × Nat))
    (s : Nat) : ∀ m, s ≤ m →
    ∀ j, j < ces.length → (ces.getD j eDflt).1 < s →
      (wseq fs ces m).getD j 0 = (wseq fs ces s).getD j 0 := by
  intro m hsm
  induction m, hsm using Nat.le_induction with
  | base => intro j _ _; rfl
  | succ m hsm ih =>
    intro j hj hc
    rw [wseq_succ]
    unfold propStep
    rw [assignOuts_preserve ces _ _ m (wseq_length fs ces m) j hj (by omega)]
    exact ih j hj hc

theorem wseq_stable_out (fs : Nat → List Nat → List Nat)
    (ces : List (Nat × Nat × Nat × Nat)) (s : Nat) : ∀ m, s + 1 ≤ m →
    ∀ j, j < ces.length → (ces.getD j eDflt).1 = s →
      (wseq fs ces m).getD j 0 = (wseq fs ces (s + 1)).getD j 0 := by
  intro m hsm
  induction m, hsm using Nat.le_induction with
  | base => intro j _ _; rfl
  | succ m hsm ih =>
    intro j hj hc
    rw [wseq_succ]
    unfold propStep
    rw [assignOuts_preserve ces _ _ m (wseq_length fs ces m) j hj (by omega)]
    exact ih j hj hc

theorem wseq_consistent (fs : Nat → List Nat → List Nat)
    (ces : List (Nat × Nat × Nat × Nat)) (n : Nat)
    (htopo : ∀ e ∈ ces, e.1 < e.2.1 ∧ e.2.1 < n)
    (hlen : ∀ i ins, (fs i ins).length = outCount ces i) :
    ∀ s, s < n → outVals ces s (wseq fs ces n) = fs s (inVals ces s (wseq fs ces n)) := by
  intro s hs
  have h1 : outVals ces s (wseq fs ces n) = outVals ces s (wseq fs ces (s + 1)) := by
    refine outVals_congr ces _ _ s (wseq_length fs ces n) (wseq_length fs ces (s + 1)) ?_
    intro j hj hc
    exact wseq_stable_out fs ces s n (by omega) j hj hc
  have h2 : inVals ces s (wseq fs ces n) = inVals ces s (wseq fs ces s) := by
    refine inVals_congr ces _ _ s (wseq_length fs ces n) (wseq_length fs ces s) ?_
    intro j hj hc
    have hedge : ces.getD j eDflt ∈ ces := by
      rw [List.getD_eq_getElem ces eDflt hj]
      exact List.getElem_mem _
    obtain ⟨hlt, _⟩ := htopo _ hedge
    exact wseq_stable fs ces s n (by omega) j hj (by omega)
  rw [h1, h2, wseq_succ]
  exact assignOuts_outVals ces _ _ s (wseq_length fs ces s) (hlen s _)

theorem consistent_unique (fs : Nat → List Nat → List Nat)
    (ces : List (Nat × Nat × Nat × Nat)) (n : Nat)
    (htopo : ∀ e ∈ ces, e.1 < e.2.1 ∧ e.2.1 < n)
    (hlen : ∀ i ins, (fs i ins).length = outCount ces i)
    (b : List Nat) (hblen : b.length = ces.length)
    (hcons : ∀ s, s < n → outVals ces s b = fs s (inVals ces s b)) :
    b = wseq fs ces n := by
  have key : ∀ s j, j < ces.length → (ces.getD j eDflt).1 = s →
      b.getD j 0 = (wseq fs ces n).getD j 0 := by
    intro s
    induction s using Nat.strong_induction_on with
    | _ s ih =>
      intro j hj hc
      have hedge : ces.getD j eDflt ∈ ces := by
        rw [List.getD_eq_getElem ces eDflt hj]
        exact List.getElem_mem _
      obtain ⟨hlt, hdn⟩ := htopo _ hedge
      have hsn : s < n := by omega
      have hagree_in : ∀ j2, j2 < ces.length → (ces.getD j2 eDflt).2.1 = s →
          b.getD j2 0 = (wseq fs ces n).getD j2 0 := by
        intro j2 hj2 hc2
        have hedge2 : ces.getD j2 eDflt ∈ ces := by
          rw [List.getD_eq_getElem ces eDflt hj2]
          exact List.getElem_mem _
        obtain ⟨hlt2, _⟩ := htopo _ hedge2
        exact ih (ces.getD j2 eDflt).1 (by omega) j2 hj2 rfl
      have hin : inVals ces s b = inVals ces s (wseq fs ces n) :=
        inVals_congr ces b _ s hblen (wseq_length fs ces n) hagree_in
      have hout : outVals ces s b = outVals ces s (wseq fs ces n) := by
        rw [hcons s hsn, hin, ← wseq_consistent fs ces n htopo hlen s hsn]
      exact outVals_inj ces b _ s hblen (wseq_length fs ces n) hout j hj hc
  apply List.ext_getElem (by rw [hblen, wseq_length])
  intro j h1 h2
  have := key (ces.getD j eDflt).1 j (by omega) rfl
  rwa [List.getD_eq_getElem b 0 h1, List.getD_eq_getElem _ 0 h2] at this

/-! ### Claim C1 -/

/-- C1.  Reconstruction exactness: for every cut Program — fragments
`0..n-1` over an acyclic communication graph given in topological
fragment order, with arbitrary branching, multiple cut edges between the
same fragments, and open-boundary (operation-free) fragments — applying
the Contractor's `contract` to the flattened exact per-configuration
fragment results (each fragment's block in the `allConfigs` enumeration
order that `expand_fragment_tapes` uses), the per-fragment shapes, and
the communication graph returns exactly the value that direct execution
of the original uncut Program would produce, over exact integer
arithmetic. -/
theorem reconstruction_exactness (n : Nat) (ces : List (Nat × Nat × Nat × Nat))
    (fs : Nat → List Nat → List Nat) (v : Nat → List Nat → Int)
    (htopo : ∀ e ∈ ces, e.1 < e.2.1 ∧ e.2.1 < n)
    (hlen : ∀ i ins, (fs i ins).length = outCount ces i)
    (hrange : ∀ i ins, ∀ d ∈ fs i ins, d < alphabetSize) :
    contract (fragResultBlocks n ces fs v).flatten
        ((fragResultBlocks n ces fs v).map List.length)
        { nFrags := n, edges := ces }
      = uncutValue fs ces v n := by
  have hpoint : ∀ b ∈ allConfigs ces.length,
      ((List.range n).map (fun i =>
        ((fragResultBlocks n ces fs v).getD i []).getD (configIndexOf ces i b) 0)).prod
      = if b = wseq fs ces n then
          ((List.range n).map (fun i => v i (inVals ces i b))).prod
        else 0 := by
    intro b hb
    obtain ⟨hblen, hbval⟩ := (mem_allConfigs _ b).mp hb
    have hentry : ∀ i ∈ List.range n,
        ((fragResultBlocks n ces fs v).getD i []).getD (configIndexOf ces i b) 0
        = (if outVals ces i b = fs i (inVals ces i b) then (1 : Int) else 0)
            * v i (inVals ces i b) := by
      intro i hi
      have hi2 : i < n := List.mem_range.mp hi
      have hblock : (fragResultBlocks n ces fs v).getD i []
          = (allConfigs (axisTags ces i).length).map (fragTensor ces fs v i) := by
        unfold fragResultBlocks
        rw [getD_map_lt _ [] 0 _ i (by simpa using hi2), getD_range n i hi2]
      have hax_len : (axisDigits ces i b).length = (axisTags ces i).length :=
        axisDigits_length ces b i hblen
      have hax_val : ∀ d ∈ axisDigits ces i b, d < alphabetSize :=
        fun d hd => hbval d (axisDigits_subset ces b i d hd)
      have hrlt : radixVal (axisDigits ces i b)
          < alphabetSize ^ (axisTags ces i).length := by
        rw [← hax_len]
        exact radixVal_lt _ hax_val
      rw [hblock, configIndexOf_eq_radix]
      rw [getD_map_lt (fragTensor ces fs v i) 0 [] _ _
        (by rw [allConfigs_length]; exact hrlt)]
      rw [allConfigs_getD _ _ hax_len hax_val]
      unfold fragTensor
      rw [splitAxes_axisDigits ces b i hblen]
    rw [List.map_congr_left hentry]
    rw [prod_map_mul_int
      (fun i => if outVals ces i b = fs i (inVals ces i b) then (1 : Int) else 0)
      (fun i => v i (inVals ces i b))]
    rw [prod_indicator (fun i => outVals ces i b = fs i (inVals ces i b))]
    have hiff : (∀ i ∈ List.range n, outVals ces i b = fs i (inVals ces i b))
        ↔ b = wseq fs ces n := by
      constructor
      · intro hcons
        exact consistent_unique fs ces n htopo hlen b hblen
          (fun s hs => hcons s (List.mem_range.mpr hs))
      · intro he i hi
        rw [he]
        exact wseq_consistent fs ces n htopo hlen i (List.mem_range.mp hi)
    by_cases hbe : b = wseq fs ces n
    · rw [if_pos (hiff.mpr hbe), if_pos hbe]
      simp
    · rw [if_neg (fun hc => hbe (hiff.mp hc)), if_neg hbe]
      simp
  show ((allConfigs ces.length).map (fun b =>
      ((List.range n).map (fun i =>
        ((splitShapes (fragResultBlocks n ces fs v).flatten
            ((fragResultBlocks n ces fs v).map List.length)).getD i []).getD
          (configIndexOf ces i b) 0)).prod)).sum = _
  simp only [splitShapes_flatten]
  rw [List.map_congr_left hpoint]
  have hmem : wseq fs ces n ∈ allConfigs ces.length :=
    (mem_allConfigs _ _).mpr ⟨wseq_length fs ces n, wseq_valid fs ces hrange n⟩
  rw [sum_indicator_unique
    (fun b => ((List.range n).map (fun i => v i (inVals ces i b))).prod)
    (wseq fs ces n) _ (allConfigs_nodup _) hmem]
  rfl

/-- C1 witness data: a branching communication graph with two cut edges
from fragment 0 to fragments 1 and 2, whose source fragment is an open
boundary (no operations feed it). -/
def wCes : List (Nat × Nat × Nat × Nat) := [(0, 1, 10, 11), (0, 2, 12, 13)]

/-- C1 witness fragment semantics: the open-boundary source fragment
measures the channel values 2 and 1; the two sink fragments have no
outgoing cut edges. -/
def wFs : Nat → List Nat → List Nat := fun i _ => if i = 0 then [2, 1] else []

/-- C1 witness read-out factors on the two sink fragments. -/
def wV : Nat → List Nat → Int :=
  fun i ins =>
    if i = 1 then (ins.headD 0 : Int) + 3
    else if i = 2 then (ins.headD 0 : Int) * 5 else 1

/-- C1 witness: the exactness law applied at a concrete branching two-cut
program with an open-boundary source fragment. -/
theorem reconstruction_exactness_witness :
    contract (fragResultBlocks 3 wCes wFs wV).flatten
        ((fragResultBlocks 3 wCes wFs wV).map List.length)
        { nFrags := 3, edges := wCes }
      = uncutValue wFs wCes wV 3 :=
  reconstruction_exactness 3 wCes wFs wV (by decide)
    (fun i ins => by
      cases i with
      | zero => rfl
      | succ m => rfl)
    (fun i ins d hd => by
      cases i with
      | zero =>
        simp [wFs] at hd
        rcases hd with rfl | rfl <;> decide
      | succ m =>
        simp [wFs] at hd)

end QCut
